import Mathlib

/-!
Verification of the guarded query-planning and execution pipeline of the
WeBox agent service (`src/agent/main.py`).

The Python source is shallowly embedded: pure helpers (`is_safe_sql`,
`analyze_sql_shape`, `normalize_sql_for_postgres`, `enforce_sql_limits`,
`build_fixed_plan_for_question`) become Lean functions on `List Char`
mirroring Python string semantics (ASCII `lower`, `strip`, `startswith`,
substring search, and the specific regexes used by the source).  The
external collaborators (LLM generation, database execution) are abstracted
as oracles, and the retry loop / plan loop become explicit recursion with
Python exceptions modelled by `Except`.
-/

set_option maxRecDepth 8192

namespace WeBox

/-! ## Character classes (Python `str` / `re` semantics, ASCII fragment) -/

/-- Python `\s` (ASCII fragment): space, tab, newline, carriage return,
vertical tab, form feed. -/
def isSpaceCh (c : Char) : Bool :=
  c = ' ' || c = '\t' || c = '\n' || c = '\r' || c = '\x0b' || c = '\x0c'

def isAsciiUpperCh (c : Char) : Bool := 'A' ≤ c && c ≤ 'Z'

def isAsciiLowerCh (c : Char) : Bool := 'a' ≤ c && c ≤ 'z'

def isDigitCh (c : Char) : Bool := '0' ≤ c && c ≤ '9'

def isAsciiAlphaCh (c : Char) : Bool := isAsciiUpperCh c || isAsciiLowerCh c

/-- Lower-casing table: the ASCII capitals plus the accented capitals that
occur in the source's Portuguese keywords. -/
def lowerTable : List (Char × Char) :=
  [('A', 'a'), ('B', 'b'), ('C', 'c'), ('D', 'd'), ('E', 'e'), ('F', 'f'),
   ('G', 'g'), ('H', 'h'), ('I', 'i'), ('J', 'j'), ('K', 'k'), ('L', 'l'),
   ('M', 'm'), ('N', 'n'), ('O', 'o'), ('P', 'p'), ('Q', 'q'), ('R', 'r'),
   ('S', 's'), ('T', 't'), ('U', 'u'), ('V', 'v'), ('W', 'w'), ('X', 'x'),
   ('Y', 'y'), ('Z', 'z'),
   ('Á', 'á'), ('À', 'à'), ('Â', 'â'), ('Ã', 'ã'), ('É', 'é'), ('Ê', 'ê'),
   ('Í', 'í'), ('Ó', 'ó'), ('Ô', 'ô'), ('Õ', 'õ'), ('Ú', 'ú'), ('Ç', 'ç')]

/-- Python `str.lower` restricted to the characters above (all other
characters are unchanged). -/
def lowerCh (c : Char) : Char :=
  match lowerTable.find? (fun p => p.1 = c) with
  | some p => p.2
  | none => c

/-- Python `\w` (fragment relevant to the source): ASCII alphanumerics,
underscore, and the accented letters used by the source's vocabulary. -/
def isWordCh (c : Char) : Bool :=
  isAsciiAlphaCh c || isDigitCh c || c = '_' ||
  c = 'á' || c = 'à' || c = 'â' || c = 'ã' || c = 'é' || c = 'ê' ||
  c = 'í' || c = 'ó' || c = 'ô' || c = 'õ' || c = 'ú' || c = 'ç' ||
  c = 'Á' || c = 'À' || c = 'Â' || c = 'Ã' || c = 'É' || c = 'Ê' ||
  c = 'Í' || c = 'Ó' || c = 'Ô' || c = 'Õ' || c = 'Ú' || c = 'Ç'

/-! ## Python string primitives on `List Char` -/
def lowerL (s : List Char) : List Char := s.map lowerCh

/-- Python `str.strip()` (no argument): remove leading and trailing
whitespace. -/
def stripL (s : List Char) : List Char :=
  ((s.dropWhile isSpaceCh).reverse.dropWhile isSpaceCh).reverse

/-- Python `str.rstrip(";")`: remove trailing semicolons only. -/
def rstripSemiL (s : List Char) : List Char :=
  (s.reverse.dropWhile (fun c => c = ';')).reverse

/-- Python `str.rstrip(",")`: remove trailing commas only. -/
def rstripCommaL (s : List Char) : List Char :=
  (s.reverse.dropWhile (fun c => c = ',')).reverse

/-- Python `str.startswith`. -/
def startsWithL (p s : List Char) : Bool := p.isPrefixOf s

/-- Python substring containment (`needle in haystack`). -/
def containsSubL (needle : List Char) : List Char → Bool
  | [] => startsWithL needle []
  | c :: rest => startsWithL needle (c :: rest) || containsSubL needle rest

/-! ## `is_safe_sql` (src/agent/main.py lines 104-109) -/

/-- `is_safe_sql`: the trimmed, lower-cased text must start with `select`.
This is the whole guard implemented by the source. -/
def is_safe_sql (sql : List Char) : Bool :=
  startsWithL "select".data (lowerL (stripL sql))

/-! ## `analyze_sql_shape` (src/agent/main.py lines 112-129) -/

/-- Scan for `\b(sum|avg|count|min|max)\s*\(` on the (already lowered) text.
`prevWord` records whether the previous character is a word character. -/
def hasAggFnScan (prevWord : Bool) : List Char → Bool
  | [] => false
  | c :: rest =>
    (!prevWord &&
      ( (startsWithL "sum".data (c :: rest) &&
          startsWithL "(".data ((c :: rest).drop 3 |>.dropWhile isSpaceCh)) ||
        (startsWithL "avg".data (c :: rest) &&
          startsWithL "(".data ((c :: rest).drop 3 |>.dropWhile isSpaceCh)) ||
        (startsWithL "count".data (c :: rest) &&
          startsWithL "(".data ((c :: rest).drop 5 |>.dropWhile isSpaceCh)) ||
        (startsWithL "min".data (c :: rest) &&
          startsWithL "(".data ((c :: rest).drop 3 |>.dropWhile isSpaceCh)) ||
        (startsWithL "max".data (c :: rest) &&
          startsWithL "(".data ((c :: rest).drop 3 |>.dropWhile isSpaceCh)) )) ||
    hasAggFnScan (isWordCh c) rest

/-- Scan for `\blimit\s+(\d+)` on the (already lowered) text: word boundary,
literal `limit`, at least one whitespace, at least one digit. -/
def hasLimitNumScan (prevWord : Bool) : List Char → Bool
  | [] => false
  | c :: rest =>
    (!prevWord && startsWithL "limit".data (c :: rest) &&
      (let afterKw := (c :: rest).drop 5
       let ws := afterKw.takeWhile isSpaceCh
       let afterWs := afterKw.dropWhile isSpaceCh
       !ws.isEmpty && (match afterWs with
                       | [] => false
                       | d :: _ => isDigitCh d))) ||
    hasLimitNumScan (isWordCh c) rest

/-- Leftmost value captured by `\blimit\s+(\d+)` (greedy digit run), if any. -/
def limitValueScan (prevWord : Bool) : List Char → Option (List Char)
  | [] => none
  | c :: rest =>
    if !prevWord && startsWithL "limit".data (c :: rest) &&
        (let afterKw := (c :: rest).drop 5
         let ws := afterKw.takeWhile isSpaceCh
         let afterWs := afterKw.dropWhile isSpaceCh
         !ws.isEmpty && (match afterWs with
                         | [] => false
                         | d :: _ => isDigitCh d)) then
      some (((c :: rest).drop 5 |>.dropWhile isSpaceCh).takeWhile isDigitCh)
    else
      limitValueScan (isWordCh c) rest

def digitsToNat (ds : List Char) : Nat :=
  ds.foldl (fun acc d => acc * 10 + (d.toNat - '0'.toNat)) 0

/-- `analyze_sql_shape`: `(has_aggregate, has_limit, limit_value)`.
Aggregation is an aggregate function call or a `group by` substring of the
lowered text; the limit clause is `\blimit\s+(\d+)`. -/
def analyze_sql_shape (sql : List Char) : Bool × Bool × Option Nat :=
  let s := lowerL sql
  let hasAggregate := hasAggFnScan false s || containsSubL "group by".data s
  let hasLimit := hasLimitNumScan false s
  let limitValue := (limitValueScan false s).map digitsToNat
  (hasAggregate, hasLimit, limitValue)

/-! ## `enforce_sql_limits` (src/agent/main.py lines 321-328) -/

/-- Scan for `\blimit\b` on the (already lowered) text. -/
def hasWordLimitScan (prevWord : Bool) : List Char → Bool
  | [] => false
  | c :: rest =>
    (!prevWord && startsWithL "limit".data (c :: rest) &&
      (match (c :: rest).drop 5 with
       | [] => true
       | d :: _ => !isWordCh d)) ||
    hasWordLimitScan (isWordCh c) rest

def MAX_COLS : Nat := 30

def MAX_ROWS : Nat := 100

def MAX_SQL_ATTEMPTS : Nat := 3

/-- `enforce_sql_limits`: strip, drop trailing semicolons, then either keep
the statement's own limit clause or append ` LIMIT 100`. -/
def enforce_sql_limits (sql : List Char) : List Char :=
  let sqlClean := rstripSemiL (stripL sql)
  if hasWordLimitScan false (lowerL sqlClean) then
    sqlClean ++ ";".data
  else
    sqlClean ++ " LIMIT 100;".data

/-! ## `normalize_sql_for_postgres` (src/agent/main.py lines 132-146)

The source applies `re.sub` with the pattern
`group\s+by\s+([a-zA-Z0-9_\",.\s]+?)\s+with\s+rollup` (IGNORECASE),
replacing each match by `GROUP BY ROLLUP ({cols})` where `cols` is the
captured group stripped of surrounding whitespace and trailing commas.
The embedding below implements exactly this substitution: a left-to-right
scan for the leftmost match, where a match at a position follows Python's
backtracking order (greedy `\s+`, then the lazy capture growing from the
shortest, giving whitespace back to the capture one character at a time).
-/

/-- The character class `[a-zA-Z0-9_",.\s]` of the rollup pattern. -/
def isCls (c : Char) : Bool :=
  isAsciiAlphaCh c || isDigitCh c || c = '_' || c = '"' || c = ',' ||
  c = '.' || isSpaceCh c

/-- Case-insensitive literal match: `lit` is given in lowercase; on success
return the rest of the input. -/
def matchLit (lit : List Char) (s : List Char) : Option (List Char) :=
  match lit, s with
  | [], rest => some rest
  | _ :: _, [] => none
  | l :: ls, c :: cs => if lowerCh c = l then matchLit ls cs else none

/-- Split off the maximal leading whitespace run. -/
def spanSpaces (s : List Char) : List Char × List Char :=
  (s.takeWhile isSpaceCh, s.dropWhile isSpaceCh)

/-- Match `\s+with\s+rollup` at the start of the input; on success return
the rest after `rollup`.  The whitespace runs are maximal (the following
literal starts with a non-space character, so greedy matching is exact). -/
def tailMatch (s : List Char) : Option (List Char) :=
  let (w3, r1) := spanSpaces s
  if w3.isEmpty then none
  else
    match matchLit "with".data r1 with
    | none => none
    | some r2 =>
      let (w4, r3) := spanSpaces r2
      if w4.isEmpty then none
      else matchLit "rollup".data r3

/-- Lazy capture search: find the shortest nonempty prefix of the input,
made of class characters, that is followed by `\s+with\s+rollup`.  Returns
the capture and the rest after the whole `\s+with\s+rollup` tail. -/
def capSearch : List Char → Option (List Char × List Char)
  | [] => none
  | x :: rest =>
    if isCls x then
      match tailMatch rest with
      | some r => some ([x], r)
      | none =>
        match capSearch rest with
        | some (c, r) => some (x :: c, r)
        | none => none
    else none

/-- Backtracking over the `\s+` run preceding the capture: `wrev` is the
still-assigned whitespace (reversed), `given` the whitespace already given
back to the capture.  Tries the greedy split first, then gives back one
space at a time, keeping at least one space assigned.  On success returns
`(remaining whitespace, capture, rest after match)`. -/
def w2Loop : List Char → List Char → List Char →
    Option (List Char × List Char × List Char)
  | [], _, _ => none
  | [x], given, r =>
    match capSearch (given ++ r) with
    | some (c, a) => some ([x], c, a)
    | none => none
  | x :: y :: wrest, given, r =>
    match capSearch (given ++ r) with
    | some (c, a) => some ((x :: y :: wrest).reverse, c, a)
    | none => w2Loop (y :: wrest) (x :: given) r

/-- Match the full rollup pattern at the start of the input.  On success,
return `(capture, rest after the match)`. -/
def matchRollupAt (s : List Char) : Option (List Char × List Char) :=
  match matchLit "group".data s with
  | none => none
  | some r1 =>
    let (w1, r2) := spanSpaces r1
    if w1.isEmpty then none
    else
      match matchLit "by".data r2 with
      | none => none
      | some r3 =>
        let (w2, r4) := spanSpaces r3
        if w2.isEmpty then none
        else
          match w2Loop w2.reverse [] r4 with
          | some (_, c, a) => some (c, a)
          | none => none

/-- The replacement text `GROUP BY ROLLUP ({cols})` with
`cols = capture.strip().rstrip(",")`. -/
def replText (cap : List Char) : List Char :=
  "GROUP BY ROLLUP (".data ++ rstripCommaL (stripL cap) ++ ")".data

/-- `re.sub` scan, fuel-indexed so the definition is structural (the fuel
is always at least the input length at the call sites, which makes the
third equation's exhaustion case unreachable). -/
def subRollupF : Nat → List Char → List Char
  | _, [] => []
  | 0, s => s
  | fuel + 1, x :: rest =>
    match matchRollupAt (x :: rest) with
    | some (cap, after) => replText cap ++ subRollupF fuel after
    | none => x :: subRollupF fuel rest

/-- `normalize_sql_for_postgres`: rewrite every occurrence of the
non-portable `GROUP BY ... WITH ROLLUP` spelling. -/
def normalize_sql_for_postgres (sql : List Char) : List Char :=
  subRollupF sql.length sql

/-- Leftmost-match search used to state the claim: does the rollup pattern
match at some position? -/
def findRollup : List Char → Bool
  | [] => false
  | c :: rest => (matchRollupAt (c :: rest)).isSome || findRollup rest

/-! ## `build_fixed_plan_for_question` (src/agent/main.py lines 262-314) -/
structure PlanItem where
  id : String
  title : String
  question : String
  goal : String
deriving DecidableEq

/-- `"relatório" in q_lower or "relatorio" in q_lower`. -/
def mentionsReport (qLower : List Char) : Bool :=
  containsSubL "relatório".data qLower || containsSubL "relatorio".data qLower

/-- `"como foi" in q_lower`. -/
def broadHowWas (qLower : List Char) : Bool :=
  containsSubL "como foi".data qLower

/-- Scan for `\b20\d{2}\b`. -/
def hasYearScan (prevWord : Bool) : List Char → Bool
  | [] => false
  | c :: rest =>
    (!prevWord && c == '2' &&
      (match rest with
       | '0' :: d1 :: d2 :: rest2 =>
         isDigitCh d1 && isDigitCh d2 &&
           (match rest2 with
            | [] => true
            | e :: _ => !isWordCh e)
       | _ => false)) ||
    hasYearScan (isWordCh c) rest

/-- `re.search(r"\b20\d{2}\b", q_lower) is not None`. -/
def mentionsYear (qLower : List Char) : Bool := hasYearScan false qLower

/-- The report-shape decision: an explicit report keyword, or the broad
temporal phrase together with a year token of the form `20\d{2}`. -/
def is_year_report (question : String) : Bool :=
  let qLower := lowerL question.data
  mentionsReport qLower || (broadHowWas qLower && mentionsYear qLower)

/-- The fixed three-item report plan of the source. -/
def reportPlan : List PlanItem :=
  [ { id := "q1"
      title := "Visão geral mensal do faturamento"
      question := "Calcule, para o ano de 2024, o faturamento total por mês, incluindo quantidade de notas, soma de valor_bruto, soma de valor_liquido, soma de valor_imposto e ticket_medio_estimado médio por mês."
      goal := "Entender a evolução mensal do faturamento em 2024." },
    { id := "q2"
      title := "Faturamento por status do título"
      question := "Para o ano de 2024, agrupe por status_titulo e retorne, por status, a quantidade de notas e a soma de valor_liquido."
      goal := "Entender quanto está faturado por status (pago, aberto, vencido, etc.)." },
    { id := "q3"
      title := "Faturamento por cluster ou segmento de cliente"
      question := "Para o ano de 2024, agrupe por cluster_cliente ou segmento_cliente (o que existir na tabela) e retorne a quantidade de notas e a soma de valor_liquido. Se existirem as duas colunas, prefira agrupar por cluster_cliente."
      goal := "Entender concentração de receita por perfil de cliente em 2024." } ]

/-- The single-item simple plan: the sub-question is the original question. -/
def simplePlan (question : String) : List PlanItem :=
  [ { id := "q1"
      title := "Pergunta principal"
      question := question
      goal := "Responder diretamente à pergunta do usuário" } ]

/-- `build_fixed_plan_for_question`. -/
def build_fixed_plan_for_question (question : String) : List PlanItem :=
  if is_year_report question then reportPlan else simplePlan question

/-! ## The retry controller (src/agent/main.py lines 338-386)

`decide_sql` (the LLM call plus schema introspection) and `db_mcp_tool`
(the store execution) are I/O and are abstracted as an oracle; a Python
exception raised by either one is an `Except.error`.  `HTTPException` and
other exceptions are distinguished because `run_analysis_pipeline` catches
only `HTTPException`. -/

/-- A Python exception: `HTTPException(status_code, detail)` or any other
exception rendered by its message. -/
inductive Exc where
  | http (status : Nat) (detail : String)
  | other (msg : String)
deriving DecidableEq, Repr

instance {ε α : Type} [DecidableEq ε] [DecidableEq α] :
    DecidableEq (Except ε α) := fun x y =>
  match x, y with
  | .ok a, .ok b =>
    if h : a = b then isTrue (by rw [h])
    else isFalse (by intro hh; cases hh; exact h rfl)
  | .error a, .error b =>
    if h : a = b then isTrue (by rw [h])
    else isFalse (by intro hh; cases hh; exact h rfl)
  | .ok _, .error _ => isFalse (fun hh => Except.noConfusion hh)
  | .error _, .ok _ => isFalse (fun hh => Except.noConfusion hh)

/-- A row mapping (column name to rendered value). -/
abbrev Row := List (String × String)

/-- Oracle for one sub-question: `genSql previous_sql previous_issue`
models `decide_sql`, `execSql` models `db_mcp_tool`. -/
structure Oracle where
  genSql : Option String → Option String → Except Exc String
  execSql : String → Except Exc (List Row)

def unsafeDetail : String :=
  "A consulta gerada pela IA foi considerada insegura."

def aggIssueDetail : String :=
  "a consulta retornou 100 linhas de detalhe usando LIMIT, provavelmente como amostra de um conjunto maior. Gere agora uma consulta AGREGADA (GROUP BY com SUM/COUNT/AVG, etc.) que responda a mesma pergunta sem depender de amostra."

def tooBigDetail (numCols numRows : Nat) : String :=
  "A consulta retornou " ++ toString numCols ++ " colunas e " ++
  toString numRows ++
  " linhas (resultado muito grande). Gere uma nova consulta MAIS AGREGADA e com MENOS colunas, respeitando o limite de no máximo 30 colunas e 100 linhas."

def exhaustDetail : String :=
  "Não foi possível gerar uma consulta SQL que respeitasse o limite de no máximo 30 colunas e 100 linhas após várias tentativas."

def allFailDetail : String :=
  "Nenhuma consulta SQL pôde ser executada com sucesso para o plano de análise."

/-- `len(rows[0]) if rows else 0`. -/
def numColsOf (rows : List Row) : Nat :=
  match rows with
  | [] => 0
  | r :: _ => r.length

/-- Outcome of one iteration of the retry loop body. -/
inductive AttemptOut where
  | accept (sql : String) (rows : List Row)
  | retry (prevSql prevIssue : String)
  | halt (e : Exc)
deriving DecidableEq

/-- The `ANALYZE_RESULT` step (source lines 356-378): the sampling-artifact
check, then the acceptance check, then the too-big feedback. -/
def analyzeOutcome (sql : String) (rows : List Row) : AttemptOut :=
  let shape := analyze_sql_shape sql.data
  let numRows := rows.length
  let numCols := numColsOf rows
  if shape.1 = false ∧ shape.2.1 = true ∧ numRows = MAX_ROWS then
    .retry sql aggIssueDetail
  else if numRows ≤ MAX_ROWS ∧ numCols ≤ MAX_COLS then
    .accept sql rows
  else
    .retry sql (tooBigDetail numCols numRows)

/-- The post-generation candidate text: dialect normalization followed by
limit enforcement (source lines 344-345). -/
def candidateOf (raw : String) : String :=
  ⟨enforce_sql_limits (normalize_sql_for_postgres raw.data)⟩

/-- One iteration of the `for` body of `plan_and_run_sql_with_limits`:
generate, normalize, enforce limits, validate, analyze shape, execute,
then the sampling-artifact check followed by the acceptance check. -/
def runAttempt (o : Oracle) (prevSql prevIssue : Option String) : AttemptOut :=
  match o.genSql prevSql prevIssue with
  | .error e => .halt e
  | .ok raw =>
    let sql := candidateOf raw
    if is_safe_sql sql.data = false then .halt (.http 400 unsafeDetail)
    else
      match o.execSql sql with
      | .error e => .halt e
      | .ok rows => analyzeOutcome sql rows

/-- The retry loop, with the remaining attempt budget as fuel; also counts
the attempts consumed. -/
def planAndRunAux (o : Oracle) : Nat → Option String → Option String →
    Except Exc (String × List Row) × Nat
  | 0, _, _ => (.error (.http 500 exhaustDetail), 0)
  | fuel + 1, ps, pi =>
    match runAttempt o ps pi with
    | .accept s r => (.ok (s, r), 1)
    | .halt e => (.error e, 1)
    | .retry s i =>
      let res := planAndRunAux o fuel (some s) (some i)
      (res.1, res.2 + 1)

/-- `plan_and_run_sql_with_limits` for one sub-question (the oracle closes
over the sub-question). -/
def plan_and_run_sql_with_limits (o : Oracle) : Except Exc (String × List Row) :=
  (planAndRunAux o MAX_SQL_ATTEMPTS none none).1

/-- Number of generate-validate-execute-analyze cycles performed. -/
def attemptsUsed (o : Oracle) : Nat :=
  (planAndRunAux o MAX_SQL_ATTEMPTS none none).2

/-! ## `run_analysis_pipeline` (src/agent/main.py lines 389-430) -/
structure QueryResult where
  id : String
  title : String
  goal : String
  subquestion : String
  sql : Option String
  total_rows : Nat
  rows : List Row
  error : Option String
deriving DecidableEq

/-- `item.get("question") or question` (empty string is falsy). -/
def subQuestionOf (question : String) (item : PlanItem) : String :=
  if item.question = "" then question else item.question

/-- One iteration of the plan loop: an `HTTPException` becomes an error
`QueryResult`; any other exception propagates. -/
def processItem (O : String → Oracle) (question : String) (item : PlanItem) :
    Except Exc QueryResult :=
  let sub_q := subQuestionOf question item
  match plan_and_run_sql_with_limits (O sub_q) with
  | .ok (sql, rows) =>
    .ok { id := item.id, title := item.title, goal := item.goal
          subquestion := sub_q, sql := some sql, total_rows := rows.length
          rows := rows, error := none }
  | .error (.http _ d) =>
    .ok { id := item.id, title := item.title, goal := item.goal
          subquestion := sub_q, sql := none, total_rows := 0
          rows := [], error := some d }
  | .error (.other m) => .error (.other m)

/-- The plan loop: runs items in order; a propagating exception aborts the
remaining items. -/
def runItems (O : String → Oracle) (question : String) :
    List PlanItem → Except Exc (List QueryResult)
  | [] => .ok []
  | item :: rest =>
    match processItem O question item with
    | .error e => .error e
    | .ok r =>
      match runItems O question rest with
      | .error e => .error e
      | .ok rs => .ok (r :: rs)

/-- `run_analysis_pipeline`. -/
def run_analysis_pipeline (O : String → Oracle) (question : String) :
    Except Exc (List PlanItem × List QueryResult) :=
  let plan := build_fixed_plan_for_question question
  match runItems O question plan with
  | .error e => .error e
  | .ok results =>
    if results.all (fun r => r.error.isSome) then .error (.http 500 allFailDetail)
    else .ok (plan, results)

/-! ## `run_agent` (src/agent/main.py lines 583-639) -/
structure AgentResponse where
  answer : String
  debug_sql : Option String
deriving DecidableEq

/-- Oracles for the two prose-generation calls; a raised exception is an
`Except.error` with its message. -/
structure AnswerOracle where
  simple : String → Option String → List Row → Except String String
  report : String → List PlanItem → List QueryResult → Except String String

def noLlmAnswer : String :=
  "Desculpe, o módulo de IA não está disponível no momento, então não consigo gerar uma resposta baseada nos seus dados. Tente novamente mais tarde ou habilite a OPENAI_API_KEY."

/-- `build_answer`: the deterministic fallback notice. -/
def build_answer : String :=
  "Os dados foram consultados no banco com sucesso, mas o módulo de IA que gera a resposta em linguagem natural não está disponível no momento. Tente novamente mais tarde."

def pipelineErrPrefix : String :=
  "Erro no pipeline de análise com o agente de IA: "

/-- Python truthiness of `Optional[str]`. -/
def optTruthy : Option String → Bool
  | some s => s != ""
  | none => false

/-- `qr.get("title") or qr.get("id") or "subpergunta"`. -/
def blockTitle (qr : QueryResult) : String :=
  if qr.title != "" then qr.title
  else if qr.id != "" then qr.id
  else "subpergunta"

/-- One debug block: `if sql: ... elif err: ... ` (source lines 620-627). -/
def blockOf (qr : QueryResult) : Option String :=
  if optTruthy qr.sql then
    qr.sql.map (fun s => "-- " ++ blockTitle qr ++ "\n" ++ s)
  else if optTruthy qr.error then
    qr.error.map (fun e => "-- " ++ blockTitle qr ++ " (erro)\n-- " ++ e)
  else none

/-- The `try` block of step 2 of `run_agent` (answer + debug_sql); an
exception anywhere inside it (including the re-raised per-item error for a
simple plan) selects the fallback branch. -/
def agentTryBlock (A : AnswerOracle) (question : String)
    (plan : List PlanItem) (results : List QueryResult) :
    Except String (String × Option String) :=
  if plan.length = 1 then
    match results.head? with
    | none => .error "list index out of range"
    | some qr =>
      if optTruthy qr.error then .error (qr.error.getD "")
      else
        match A.simple question qr.sql qr.rows with
        | .error m => .error m
        | .ok answer => .ok (answer, qr.sql)
  else
    match A.report question plan results with
    | .error m => .error m
    | .ok answer =>
      let blocks := results.filterMap blockOf
      .ok (answer,
        if blocks.isEmpty then none
        else some (String.intercalate "\n\n" blocks))

/-- `run_agent`. -/
def run_agent (useLLM : Bool) (O : String → Oracle) (A : AnswerOracle)
    (question : String) : Except Exc AgentResponse :=
  if useLLM = false then .ok ⟨noLlmAnswer, none⟩
  else
    match run_analysis_pipeline O question with
    | .error (.http st d) => .error (.http st d)
    | .error (.other m) => .error (.http 500 (pipelineErrPrefix ++ m))
    | .ok (plan, results) =>
      match agentTryBlock A question plan results with
      | .ok (answer, dbg) => .ok ⟨answer, dbg⟩
      | .error _ =>
        if plan.length = 1 then
          .ok ⟨build_answer, (results.head?.bind (fun qr => qr.sql))⟩
        else
          .ok ⟨build_answer, none⟩

/-- Every attempt in the budget ended in the `RETRY` branch. -/
def allRetryAux (o : Oracle) : Nat → Option String → Option String → Bool
  | 0, _, _ => true
  | fuel + 1, ps, pi =>
    match runAttempt o ps pi with
    | .retry s i => allRetryAux o fuel (some s) (some i)
    | _ => false

def allRetry (o : Oracle) : Bool :=
  allRetryAux o MAX_SQL_ATTEMPTS none none

/-! ## Concrete oracles used by witnesses and counterexamples -/

/-- A well-behaved oracle: one safe aggregand-free candidate, one row. -/
def oAccept : Oracle :=
  { genSql := fun _ _ => .ok "select a from t"
    execSql := fun _ => .ok [[("a", "1")]] }

/-- An oracle whose candidates always hit the sampling-artifact branch. -/
def oSampling : Oracle :=
  { genSql := fun _ _ => .ok "select a from t limit 100"
    execSql := fun _ => .ok (List.replicate 100 [("a", "1")]) }

/-- An oracle producing a multi-statement candidate with a denylisted
token, starting with `select`. -/
def oDenylist : Oracle :=
  { genSql := fun _ _ => .ok "select 1; drop table t limit 5"
    execSql := fun _ => .ok [[("a", "1")]] }

/-- An oracle whose first candidate fails at the store and whose retry
candidate would succeed. -/
def oExecErr : Oracle :=
  { genSql := fun ps _ =>
      .ok (match ps with
           | none => "select a from t"
           | some _ => "select b from t")
    execSql := fun s =>
      if s = "select a from t LIMIT 100;" then .error (.other "db down")
      else .ok [[("b", "2")]] }

/-! ## C1 — the safety validator -/

/-- Modelled from the spec's words (Safety Validator policy, spec section
4.4), for comparison with the source's `is_safe_sql`: trimmed lower-cased
text starts with `select`, contains at most one statement separator, and
contains no token from the denylist. -/
def specSafePolicy (sql : List Char) : Bool :=
  let s := lowerL (stripL sql)
  startsWithL "select".data s &&
  decide (s.count ';' ≤ 1) &&
  (["insert", "update", "delete", "drop", "alter", "truncate", "create",
    "grant", "revoke", "execute", "copy"].all
      (fun w => !(containsSubL w.data s)))

/-- The accepted result of a one-item plan over the well-behaved oracle. -/
def qrAcc : QueryResult :=
  { id := "q1", title := "Pergunta principal"
    goal := "Responder diretamente à pergunta do usuário"
    subquestion := "oi", sql := some "select a from t LIMIT 100;"
    total_rows := 1, rows := [[("a", "1")]], error := none }

/-! ## C3 — failed items, sibling items, and what propagates -/

/-- An oracle whose store always raises a non-HTTP execution exception. -/
def oExecAlwaysErr : Oracle :=
  { genSql := fun _ _ => .ok "select a from t"
    execSql := fun _ => .error (.other "db down") }

/-- An oracle generating a non-`select` candidate (hard validation stop). -/
def oUnsafeGen : Oracle :=
  { genSql := fun _ _ => .ok "drop table t"
    execSql := fun _ => .ok [] }

/-- The sub-question of the first fixed report item. -/
def q1ReportQuestion : String :=
  "Calcule, para o ano de 2024, o faturamento total por mês, incluindo quantidade de notas, soma de valor_bruto, soma de valor_liquido, soma de valor_imposto e ticket_medio_estimado médio por mês."

/-- Oracle family whose first report item fails at the store and whose
other items would succeed. -/
def oC3fam : String → Oracle := fun sub =>
  if sub = q1ReportQuestion then oExecAlwaysErr else oAccept

/-- The single item of the simple plan for the question `oi`. -/
def pItemOi : PlanItem :=
  { id := "q1", title := "Pergunta principal", question := "oi"
    goal := "Responder diretamente à pergunta do usuário" }

/-! ## C8 — the final answer's debug_sql -/

/-- The sub-question of the second fixed report item. -/
def q2ReportQuestion : String :=
  "Para o ano de 2024, agrupe por status_titulo e retorne, por status, a quantidade de notas e a soma de valor_liquido."

/-- Oracle family whose second report item generates an unsafe candidate
(hard per-item failure) while the others succeed. -/
def oC8fam : String → Oracle := fun sub =>
  if sub = q2ReportQuestion then oUnsafeGen else oAccept

/-- Deterministic prose oracles. -/
def aC8 : AnswerOracle :=
  { simple := fun _ _ _ => .ok "s"
    report := fun _ _ _ => .ok "laudo" }

/-- Modelled from the spec (AgentAnswer, spec section 3), for comparison
with the source's debug assembly: debug_sql is the concatenation of all
accepted SQL statements with their titles, or null if none succeeded. -/
def specDebugSql (results : List QueryResult) : Option String :=
  let blocks := results.filterMap
    (fun qr => qr.sql.map (fun s => "-- " ++ qr.title ++ "\n" ++ s))
  if blocks.isEmpty then none else some (String.intercalate "\n\n" blocks)

/-- The three results of the mixed `relatório` run. -/
def c8Results : List QueryResult :=
  [ { id := "q1", title := "Visão geral mensal do faturamento"
      goal := "Entender a evolução mensal do faturamento em 2024."
      subquestion := q1ReportQuestion
      sql := some "select a from t LIMIT 100;"
      total_rows := 1, rows := [[("a", "1")]], error := none },
    { id := "q2", title := "Faturamento por status do título"
      goal := "Entender quanto está faturado por status (pago, aberto, vencido, etc.)."
      subquestion := q2ReportQuestion
      sql := none, total_rows := 0, rows := [], error := some unsafeDetail },
    { id := "q3", title := "Faturamento por cluster ou segmento de cliente"
      goal := "Entender concentração de receita por perfil de cliente em 2024."
      subquestion := "Para o ano de 2024, agrupe por cluster_cliente ou segmento_cliente (o que existir na tabela) e retorne a quantidade de notas e a soma de valor_liquido. Se existirem as duas colunas, prefira agrupar por cluster_cliente."
      sql := some "select a from t LIMIT 100;"
      total_rows := 1, rows := [[("a", "1")]], error := none } ]

/-- The debug text the source actually produces for that run. -/
def c8DebugCode : String :=
  "-- Visão geral mensal do faturamento\nselect a from t LIMIT 100;\n\n-- Faturamento por status do título (erro)\n-- A consulta gerada pela IA foi considerada insegura.\n\n-- Faturamento por cluster ou segmento de cliente\nselect a from t LIMIT 100;"

/-- The debug text the claim describes for that run (accepted statements
only). -/
def c8DebugSpec : String :=
  "-- Visão geral mensal do faturamento\nselect a from t LIMIT 100;\n\n-- Faturamento por cluster ou segmento de cliente\nselect a from t LIMIT 100;"

/-! ## C9 — the rollup rewrite

The declarative reading of one occurrence of the non-portable spelling,
used to state the claim independently of the scanning implementation. -/

/-- `m` is one occurrence of `group\s+by\s+(<cap>)\s+with\s+rollup`
(case-insensitive) with capture `cap`. -/
def IsRollupOcc (m cap : List Char) : Prop :=
  ∃ g w1 b w2 w3 wi w4 ro,
    m = g ++ w1 ++ b ++ w2 ++ cap ++ w3 ++ wi ++ w4 ++ ro ∧
    lowerL g = "group".data ∧ lowerL b = "by".data ∧
    lowerL wi = "with".data ∧ lowerL ro = "rollup".data ∧
    w1 ≠ [] ∧ w1.all isSpaceCh = true ∧
    w2 ≠ [] ∧ w2.all isSpaceCh = true ∧
    w3 ≠ [] ∧ w3.all isSpaceCh = true ∧
    w4 ≠ [] ∧ w4.all isSpaceCh = true ∧
    cap ≠ [] ∧ cap.all isCls = true

/-- The text contains an occurrence of the non-portable spelling. -/
def HasRollupOcc (s : List Char) : Prop :=
  ∃ pre m cap post, s = pre ++ m ++ post ∧ IsRollupOcc m cap

/-- The capture returned by the lazy (shortest-first) search never contains
an internal `\s+with\s+rollup` tail preceded by a nonempty prefix: the lazy
search would have stopped at that earlier tail instead. -/
def CapNoInnerTail (cap : List Char) : Prop :=
  ∀ c1 w wi w' ro c2,
    cap = c1 ++ (w ++ (wi ++ (w' ++ (ro ++ c2)))) → c1 ≠ [] → w ≠ [] →
    w.all isSpaceCh = true → lowerL wi = "with".data → w' ≠ [] →
    w'.all isSpaceCh = true → lowerL ro = "rollup".data → False

/-! ### `spanSpaces` lemmas -/

/-- The head of the list, if any, is not whitespace. -/
def headNotSpace : List Char → Prop
  | [] => True
  | c :: _ => isSpaceCh c = false

/-! ## Lemmas and claim theorems -/

/-! ## Invariants of the retry controller -/

/-- An accepted analysis passed the row/column caps and the
sampling-artifact check, and returns the inspected candidate and rows. -/
lemma analyzeOutcome_accept_inv {sql : String} {rows : List Row}
    {sql' : String} {rows' : List Row}
    (h : analyzeOutcome sql rows = .accept sql' rows') :
    sql' = sql ∧ rows' = rows ∧ rows.length ≤ MAX_ROWS ∧
    numColsOf rows ≤ MAX_COLS ∧
    ¬((analyze_sql_shape sql.data).1 = false ∧
      (analyze_sql_shape sql.data).2.1 = true ∧ rows.length = MAX_ROWS) := by
  unfold analyzeOutcome at h
  dsimp only at h
  split at h
  · exact absurd h (fun hh => AttemptOut.noConfusion hh)
  next hsamp =>
    split at h
    next hcaps =>
      cases h
      exact ⟨rfl, rfl, hcaps.1, hcaps.2, hsamp⟩
    · exact absurd h (fun hh => AttemptOut.noConfusion hh)

/-- An accepted attempt passed the safety check, the row/column caps, and
the sampling-artifact check. -/
lemma runAttempt_accept_inv {o : Oracle} {ps pi : Option String} {sql : String}
    {rows : List Row} (h : runAttempt o ps pi = .accept sql rows) :
    is_safe_sql sql.data = true ∧ rows.length ≤ MAX_ROWS ∧
    numColsOf rows ≤ MAX_COLS ∧
    ¬((analyze_sql_shape sql.data).1 = false ∧
      (analyze_sql_shape sql.data).2.1 = true ∧ rows.length = MAX_ROWS) := by
  unfold runAttempt at h
  cases hg : o.genSql ps pi with
  | error e => rw [hg] at h; exact absurd h (fun hh => AttemptOut.noConfusion hh)
  | ok raw =>
    rw [hg] at h
    simp only at h
    split at h
    · exact absurd h (fun hh => AttemptOut.noConfusion hh)
    next hsafe =>
      cases he : o.execSql (candidateOf raw) with
      | error e =>
        rw [he] at h; exact absurd h (fun hh => AttemptOut.noConfusion hh)
      | ok rows' =>
        rw [he] at h
        obtain ⟨h1, h2, h3, h4, h5⟩ := analyzeOutcome_accept_inv h
        subst h1; subst h2
        exact ⟨by simpa using hsafe, h3, h4, h5⟩

/-- The retry loop only returns `ok` through an accepted attempt. -/
lemma planAndRunAux_ok_inv {o : Oracle} :
    ∀ (fuel : Nat) (ps pi : Option String) {sql : String} {rows : List Row},
      (planAndRunAux o fuel ps pi).1 = .ok (sql, rows) →
      is_safe_sql sql.data = true ∧ rows.length ≤ MAX_ROWS ∧
      numColsOf rows ≤ MAX_COLS ∧
      ¬((analyze_sql_shape sql.data).1 = false ∧
        (analyze_sql_shape sql.data).2.1 = true ∧ rows.length = MAX_ROWS) := by
  intro fuel
  induction fuel with
  | zero =>
    intro ps pi sql rows h
    exact absurd h (fun hh => Except.noConfusion hh)
  | succ n ih =>
    intro ps pi sql rows h
    rw [planAndRunAux] at h
    cases ha : runAttempt o ps pi with
    | accept s r =>
      rw [ha] at h
      cases h
      exact runAttempt_accept_inv ha
    | retry s i =>
      rw [ha] at h
      exact ih _ _ h
    | halt e =>
      rw [ha] at h
      exact absurd h (fun hh => Except.noConfusion hh)

/-- The attempt counter never exceeds the fuel. -/
lemma planAndRunAux_count_le {o : Oracle} :
    ∀ (fuel : Nat) (ps pi : Option String),
      (planAndRunAux o fuel ps pi).2 ≤ fuel := by
  intro fuel
  induction fuel with
  | zero => intro ps pi; exact Nat.le_refl 0
  | succ n ih =>
    intro ps pi
    rw [planAndRunAux]
    cases ha : runAttempt o ps pi with
    | accept s r => exact Nat.succ_le_succ (Nat.zero_le n)
    | retry s i =>
      have := ih (some s) (some i)
      simpa using Nat.succ_le_succ this
    | halt e => exact Nat.succ_le_succ (Nat.zero_le n)

/-- If every attempt retries, the loop ends in the exhaustion error. -/
lemma allRetryAux_exhaust {o : Oracle} :
    ∀ (fuel : Nat) (ps pi : Option String),
      allRetryAux o fuel ps pi = true →
      (planAndRunAux o fuel ps pi).1 = .error (.http 500 exhaustDetail) := by
  intro fuel
  induction fuel with
  | zero => intro ps pi _; rfl
  | succ n ih =>
    intro ps pi h
    rw [allRetryAux] at h
    rw [planAndRunAux]
    cases ha : runAttempt o ps pi with
    | accept s r => rw [ha] at h; exact absurd h (fun hh => Bool.noConfusion hh)
    | retry s i => rw [ha] at h; exact ih _ _ h
    | halt e => rw [ha] at h; exact absurd h (fun hh => Bool.noConfusion hh)

/-- C1 counterexample: `is_safe_sql` accepts a two-statement string with a
denylisted token, and the pipeline accepts such a candidate text, so the
claimed "if and only if" policy does not hold of the code. -/
theorem c1_counterexample :
    is_safe_sql "select 1; drop table t;".data = true ∧
    specSafePolicy "select 1; drop table t;".data = false ∧
    plan_and_run_sql_with_limits oDenylist =
      .ok ("select 1; drop table t limit 5;", [[("a", "1")]]) ∧
    specSafePolicy "select 1; drop table t limit 5;".data = false := by
  decide

/-- C1 (amended): the safety validator accepts exactly the strings whose
trimmed, lower-cased text starts with `select` (no separator-count or
denylist condition), and every candidate accepted by the retry loop
satisfies that single condition. -/
theorem c1_validator_policy :
    (∀ s : List Char,
      is_safe_sql s = startsWithL "select".data (lowerL (stripL s))) ∧
    (∀ (o : Oracle) (sql : String) (rows : List Row),
      plan_and_run_sql_with_limits o = .ok (sql, rows) →
      startsWithL "select".data (lowerL (stripL sql.data)) = true) := by
  refine ⟨fun s => rfl, fun o sql rows h => ?_⟩
  have := (planAndRunAux_ok_inv MAX_SQL_ATTEMPTS none none h).1
  simpa [is_safe_sql] using this

/-- C1 witness: the amended statement applied to a concrete accepted run. -/
theorem c1_witness :
    startsWithL "select".data
      (lowerL (stripL "select a from t LIMIT 100;".data)) = true :=
  c1_validator_policy.2 oAccept "select a from t LIMIT 100;" [[("a", "1")]]
    (by decide)

/-! ## C2 — execution exceptions are not retried -/

/-- C2 counterexample: the first attempt's store error aborts the retry
loop after one attempt even though the next attempt would be accepted, so
an execution exception is not a retryable defect. -/
theorem c2_counterexample :
    plan_and_run_sql_with_limits oExecErr = .error (.other "db down") ∧
    attemptsUsed oExecErr = 1 ∧
    runAttempt oExecErr (some "x") (some "y") =
      .accept "select b from t LIMIT 100;" [[("b", "2")]] := by
  decide

/-- C2 (amended): an execution exception raised while running a candidate
propagates out of the retry loop unchanged, consuming only the failing
attempt, and — not being an `HTTPException` — it also propagates out of
the per-item handling of the plan loop. -/
theorem c2_exec_exception_propagates :
    (∀ (o : Oracle) (raw : String) (e : Exc),
      o.genSql none none = .ok raw →
      is_safe_sql (candidateOf raw).data = true →
      o.execSql (candidateOf raw) = .error e →
      plan_and_run_sql_with_limits o = .error e ∧ attemptsUsed o = 1) ∧
    (∀ (O : String → Oracle) (q : String) (item : PlanItem) (m : String),
      plan_and_run_sql_with_limits (O (subQuestionOf q item)) =
        .error (.other m) →
      processItem O q item = .error (.other m)) := by
  constructor
  · intro o raw e hg hsafe he
    have hrun : runAttempt o none none = .halt e := by
      unfold runAttempt
      rw [hg]
      simp only
      rw [if_neg (by simp [hsafe])]
      rw [he]
    constructor
    · show (planAndRunAux o MAX_SQL_ATTEMPTS none none).1 = .error e
      rw [show MAX_SQL_ATTEMPTS = 2 + 1 from rfl, planAndRunAux, hrun]
    · show (planAndRunAux o MAX_SQL_ATTEMPTS none none).2 = 1
      rw [show MAX_SQL_ATTEMPTS = 2 + 1 from rfl, planAndRunAux, hrun]
  · intro O q item m h
    unfold processItem
    dsimp only
    rw [h]

/-- C2 witness: the amended statement applied to the concrete oracle. -/
theorem c2_witness :
    plan_and_run_sql_with_limits oExecErr = .error (.other "db down") ∧
    attemptsUsed oExecErr = 1 :=
  c2_exec_exception_propagates.1 oExecErr "select a from t" (.other "db down")
    (by decide) (by decide) (by decide)

/-! ## C4 — the sampling-artifact rule -/

/-- C4: a safe candidate that is not aggregated, has a limit clause, and
returns exactly the row cap is sent to `RETRY` with the aggregation
feedback, and no accepted candidate ever has that shape (the
sampling-artifact check precedes the acceptance check). -/
theorem c4_sampling_artifact_retry :
    (∀ (o : Oracle) (ps pi : Option String) (raw : String) (rows : List Row),
      o.genSql ps pi = .ok raw →
      is_safe_sql (candidateOf raw).data = true →
      o.execSql (candidateOf raw) = .ok rows →
      (analyze_sql_shape (candidateOf raw).data).1 = false →
      (analyze_sql_shape (candidateOf raw).data).2.1 = true →
      rows.length = MAX_ROWS →
      runAttempt o ps pi = .retry (candidateOf raw) aggIssueDetail) ∧
    (∀ (o : Oracle) (sql : String) (rows : List Row),
      plan_and_run_sql_with_limits o = .ok (sql, rows) →
      ¬((analyze_sql_shape sql.data).1 = false ∧
        (analyze_sql_shape sql.data).2.1 = true ∧ rows.length = MAX_ROWS)) := by
  constructor
  · intro o ps pi raw rows hg hsafe he hagg hlim hcap
    unfold runAttempt
    rw [hg]
    simp only
    rw [if_neg (by simp [hsafe])]
    rw [he]
    unfold analyzeOutcome
    dsimp only
    rw [if_pos ⟨hagg, hlim, hcap⟩]
  · intro o sql rows h
    exact (planAndRunAux_ok_inv MAX_SQL_ATTEMPTS none none h).2.2.2

/-- C4 witness: the sampling-artifact branch fires on a concrete
non-aggregated, limit-bearing candidate returning exactly 100 rows. -/
theorem c4_witness :
    runAttempt oSampling none none =
      .retry (candidateOf "select a from t limit 100") aggIssueDetail :=
  c4_sampling_artifact_retry.1 oSampling none none "select a from t limit 100"
    (List.replicate 100 [("a", "1")]) (by decide) (by decide) (by decide)
    (by decide) (by decide) (by decide)

/-! ## C5 — the attempt bound -/

/-- C5: the retry controller performs at most `MAX_SQL_ATTEMPTS` cycles,
and if every attempt in the budget retries, the item ends in the
exhaustion `FAIL` error rather than looping again. -/
theorem c5_attempt_bound (o : Oracle) :
    attemptsUsed o ≤ MAX_SQL_ATTEMPTS ∧
    (allRetry o = true →
      plan_and_run_sql_with_limits o = .error (.http 500 exhaustDetail)) :=
  ⟨planAndRunAux_count_le MAX_SQL_ATTEMPTS none none,
   fun h => allRetryAux_exhaust MAX_SQL_ATTEMPTS none none h⟩

/-- C5 witness: a concrete oracle that always hits the sampling branch
consumes exactly the budget and ends in the exhaustion error. -/
theorem c5_witness :
    attemptsUsed oSampling ≤ MAX_SQL_ATTEMPTS ∧
    plan_and_run_sql_with_limits oSampling =
      .error (.http 500 exhaustDetail) :=
  ⟨(c5_attempt_bound oSampling).1, (c5_attempt_bound oSampling).2 (by decide)⟩

/-! ## Invariants of the plan loop -/

/-- A successful `processItem` result: field provenance and the two
possible states (accepted with SQL, or failed with error and no rows). -/
lemma processItem_ok_shape {O : String → Oracle} {q : String} {item : PlanItem}
    {r : QueryResult} (h : processItem O q item = .ok r) :
    r.id = item.id ∧ r.title = item.title ∧ r.goal = item.goal ∧
    r.subquestion = subQuestionOf q item ∧
    ((r.error = none ∧ ∃ s, r.sql = some s ∧
        plan_and_run_sql_with_limits (O (subQuestionOf q item)) =
          .ok (s, r.rows) ∧ r.total_rows = r.rows.length) ∨
     (∃ d, r.error = some d ∧ r.sql = none ∧ r.rows = [] ∧
        r.total_rows = 0)) := by
  unfold processItem at h
  dsimp only at h
  cases hrun : plan_and_run_sql_with_limits (O (subQuestionOf q item)) with
  | ok p =>
    obtain ⟨s0, rows0⟩ := p
    rw [hrun] at h
    cases h
    exact ⟨rfl, rfl, rfl, rfl, Or.inl ⟨rfl, s0, rfl, rfl, rfl⟩⟩
  | error e =>
    cases e with
    | http st d =>
      rw [hrun] at h
      cases h
      exact ⟨rfl, rfl, rfl, rfl, Or.inr ⟨d, rfl, rfl, rfl, rfl⟩⟩
    | other m =>
      rw [hrun] at h
      exact absurd h (fun hh => Except.noConfusion hh)

/-- A successful plan loop returns one result per item, in order. -/
lemma runItems_ok_inv {O : String → Oracle} {q : String} :
    ∀ {items : List PlanItem} {rs : List QueryResult},
      runItems O q items = .ok rs →
      rs.length = items.length ∧
      ∀ (i : Nat) (h1 : i < items.length) (h2 : i < rs.length),
        processItem O q (items.get ⟨i, h1⟩) = .ok (rs.get ⟨i, h2⟩) := by
  intro items
  induction items with
  | nil =>
    intro rs h
    cases h
    exact ⟨rfl, fun i h1 _ => absurd h1 (Nat.not_lt_zero i)⟩
  | cons item rest ih =>
    intro rs h
    rw [runItems] at h
    cases hp : processItem O q item with
    | error e =>
      rw [hp] at h
      exact absurd h (fun hh => Except.noConfusion hh)
    | ok r =>
      rw [hp] at h
      cases hr : runItems O q rest with
      | error e =>
        rw [hr] at h
        exact absurd h (fun hh => Except.noConfusion hh)
      | ok rs0 =>
        rw [hr] at h
        cases h
        obtain ⟨hlen, hfields⟩ := ih hr
        refine ⟨by simp [hlen], fun i h1 h2 => ?_⟩
        cases i with
        | zero => simpa using hp
        | succ j =>
          exact hfields j (Nat.lt_of_succ_lt_succ h1) (Nat.lt_of_succ_lt_succ h2)

/-- Membership version of `runItems_ok_inv`. -/
lemma runItems_mem {O : String → Oracle} {q : String} :
    ∀ {items : List PlanItem} {rs : List QueryResult},
      runItems O q items = .ok rs →
      ∀ r ∈ rs, ∃ item ∈ items, processItem O q item = .ok r := by
  intro items
  induction items with
  | nil =>
    intro rs h r hr
    cases h
    exact absurd hr (List.not_mem_nil r)
  | cons item rest ih =>
    intro rs h r hr
    rw [runItems] at h
    cases hp : processItem O q item with
    | error e =>
      rw [hp] at h
      exact absurd h (fun hh => Except.noConfusion hh)
    | ok r0 =>
      rw [hp] at h
      cases hrest : runItems O q rest with
      | error e =>
        rw [hrest] at h
        exact absurd h (fun hh => Except.noConfusion hh)
      | ok rs0 =>
        rw [hrest] at h
        cases h
        rcases List.mem_cons.mp hr with h0 | h0
        · exact ⟨item, List.mem_cons_self item rest, h0 ▸ hp⟩
        · obtain ⟨it, hit, hpr⟩ := ih hrest r h0
          exact ⟨it, List.mem_cons_of_mem item hit, hpr⟩

/-- A successful pipeline run: the plan is the built plan, the results come
from a successful plan loop, and not every result failed. -/
lemma run_analysis_pipeline_ok_inv {O : String → Oracle} {q : String}
    {plan : List PlanItem} {results : List QueryResult}
    (h : run_analysis_pipeline O q = .ok (plan, results)) :
    plan = build_fixed_plan_for_question q ∧
    runItems O q (build_fixed_plan_for_question q) = .ok results ∧
    (results.all (fun r => r.error.isSome)) = false := by
  unfold run_analysis_pipeline at h
  dsimp only at h
  cases hri : runItems O q (build_fixed_plan_for_question q) with
  | error e =>
    rw [hri] at h
    exact absurd h (fun hh => Except.noConfusion hh)
  | ok rs =>
    rw [hri] at h
    dsimp only at h
    by_cases hall : rs.all (fun r => r.error.isSome) = true
    · rw [if_pos hall] at h
      exact absurd h (fun hh => Except.noConfusion hh)
    · rw [if_neg hall] at h
      cases h
      exact ⟨rfl, rfl, Bool.eq_false_iff.mpr (fun hh => hall hh)⟩

/-! ## C6 — row and column caps on accepted results -/

/-- C6: every accepted QueryResult (error unset) of a successful pipeline
run respects the row cap and the column cap, and its `total_rows` counts
its rows. -/
theorem c6_accepted_caps (O : String → Oracle) (q : String)
    (plan : List PlanItem) (results : List QueryResult) (r : QueryResult)
    (hpipe : run_analysis_pipeline O q = .ok (plan, results))
    (hmem : r ∈ results) (herr : r.error = none) :
    r.total_rows ≤ MAX_ROWS ∧ numColsOf r.rows ≤ MAX_COLS ∧
    r.total_rows = r.rows.length := by
  obtain ⟨-, hri, -⟩ := run_analysis_pipeline_ok_inv hpipe
  obtain ⟨item, -, hpr⟩ := runItems_mem hri r hmem
  obtain ⟨-, -, -, -, hstate⟩ := processItem_ok_shape hpr
  rcases hstate with ⟨-, s, -, hrun, htot⟩ | ⟨d, hd, -⟩
  · obtain ⟨-, hrows, hcols, -⟩ :=
      planAndRunAux_ok_inv MAX_SQL_ATTEMPTS none none hrun
    exact ⟨htot ▸ hrows, hcols, htot⟩
  · rw [hd] at herr
    exact absurd herr (fun hh => Option.noConfusion hh)

/-- C6 witness: the caps hold on a concrete accepted result. -/
theorem c6_witness :
    qrAcc.total_rows ≤ MAX_ROWS ∧ numColsOf qrAcc.rows ≤ MAX_COLS ∧
    qrAcc.total_rows = qrAcc.rows.length :=
  c6_accepted_caps (fun _ => oAccept) "oi" (simplePlan "oi") [qrAcc] qrAcc
    (by decide) (List.mem_singleton.mpr rfl) (by decide)

/-- C3 counterexample: a report plan whose first item fails with an
execution (store) error raises out of the plan loop — the two sibling
items are never run and no per-item QueryResult is produced. -/
theorem c3_counterexample :
    (build_fixed_plan_for_question "relatório 2024").length = 3 ∧
    run_analysis_pipeline oC3fam "relatório 2024" =
      .error (.other "db down") := by
  decide

/-- C3 (amended): a PlanItem that fails with an `HTTPException` (unsafe
candidate or exhausted attempts) yields a QueryResult with the error set,
no rows and a zero row count, and sibling items still run (one result per
item); only a non-HTTP exception (such as a store error) aborts the loop. -/
theorem c3_fail_produces_result_and_siblings_run :
    (∀ (O : String → Oracle) (q : String) (item : PlanItem)
       (st : Nat) (d : String),
      plan_and_run_sql_with_limits (O (subQuestionOf q item)) =
        .error (.http st d) →
      processItem O q item =
        .ok { id := item.id, title := item.title, goal := item.goal
              subquestion := subQuestionOf q item, sql := none
              total_rows := 0, rows := [], error := some d }) ∧
    (∀ (O : String → Oracle) (q : String) (items : List PlanItem),
      (∀ item ∈ items, ∃ r, processItem O q item = .ok r) →
      ∃ rs, runItems O q items = .ok rs ∧ rs.length = items.length) := by
  constructor
  · intro O q item st d h
    unfold processItem
    dsimp only
    rw [h]
  · intro O q items
    induction items with
    | nil => intro _; exact ⟨[], rfl, rfl⟩
    | cons item rest ih =>
      intro hall
      obtain ⟨r, hr⟩ := hall item (List.mem_cons_self item rest)
      obtain ⟨rs, hrs, hlen⟩ :=
        ih (fun it hit => hall it (List.mem_cons_of_mem item hit))
      refine ⟨r :: rs, ?_, by simp [hlen]⟩
      rw [runItems, hr, hrs]

/-- C3 witness: a concrete unsafe-candidate failure yields an error
QueryResult, and a concrete plan loop returns one result per item. -/
theorem c3_witness :
    processItem (fun _ => oUnsafeGen) "oi" pItemOi =
      .ok { id := "q1", title := "Pergunta principal"
            goal := "Responder diretamente à pergunta do usuário"
            subquestion := "oi", sql := none, total_rows := 0, rows := []
            error := some unsafeDetail } ∧
    ∃ rs, runItems (fun _ => oAccept) "oi" [pItemOi] = .ok rs ∧
      rs.length = 1 :=
  ⟨c3_fail_produces_result_and_siblings_run.1 (fun _ => oUnsafeGen) "oi"
      pItemOi 400 unsafeDetail (by decide),
   c3_fail_produces_result_and_siblings_run.2 (fun _ => oAccept) "oi"
      [pItemOi]
      (fun item him => by
        rw [List.mem_singleton.mp him]
        exact ⟨qrAcc, by decide⟩)⟩

/-! ## C10 — shape of the pipeline's results -/

/-- For every item of a built plan, the sub-question recorded in its
result is the item's own question text. -/
lemma builder_subQuestion (q : String) :
    ∀ item ∈ build_fixed_plan_for_question q,
      subQuestionOf q item = item.question := by
  intro item him
  unfold build_fixed_plan_for_question at him
  by_cases h : is_year_report q = true
  · rw [if_pos h] at him
    fin_cases him <;> rfl
  · rw [if_neg h] at him
    have he : item =
        ⟨"q1", "Pergunta principal", q,
          "Responder diretamente à pergunta do usuário"⟩ :=
      List.mem_singleton.mp him
    subst he
    unfold subQuestionOf
    split <;> rfl

/-- C10: a successful pipeline run returns exactly one QueryResult per
PlanItem, in plan order, carrying the item's id, title, goal and
sub-question, and each result is either accepted (no error, SQL set) or
failed (error set, SQL unset, no rows, zero row count). -/
theorem c10_pipeline_result_shape (O : String → Oracle) (q : String)
    (plan : List PlanItem) (results : List QueryResult)
    (h : run_analysis_pipeline O q = .ok (plan, results)) :
    plan = build_fixed_plan_for_question q ∧
    results.length = plan.length ∧
    ∀ (i : Nat) (h1 : i < plan.length) (h2 : i < results.length),
      (results.get ⟨i, h2⟩).id = (plan.get ⟨i, h1⟩).id ∧
      (results.get ⟨i, h2⟩).title = (plan.get ⟨i, h1⟩).title ∧
      (results.get ⟨i, h2⟩).goal = (plan.get ⟨i, h1⟩).goal ∧
      (results.get ⟨i, h2⟩).subquestion = (plan.get ⟨i, h1⟩).question ∧
      (((results.get ⟨i, h2⟩).error = none ∧
          ∃ s, (results.get ⟨i, h2⟩).sql = some s) ∨
       (∃ d, (results.get ⟨i, h2⟩).error = some d ∧
          (results.get ⟨i, h2⟩).sql = none ∧
          (results.get ⟨i, h2⟩).rows = [] ∧
          (results.get ⟨i, h2⟩).total_rows = 0)) := by
  obtain ⟨hplan, hri, -⟩ := run_analysis_pipeline_ok_inv h
  subst hplan
  obtain ⟨hlen, hfields⟩ := runItems_ok_inv hri
  refine ⟨rfl, hlen, fun i h1 h2 => ?_⟩
  have hp := hfields i h1 h2
  obtain ⟨hid, htitle, hgoal, hsub, hstate⟩ := processItem_ok_shape hp
  have hsubq := builder_subQuestion q _
    (List.get_mem (build_fixed_plan_for_question q) i h1)
  refine ⟨hid, htitle, hgoal, hsub.trans hsubq, ?_⟩
  rcases hstate with ⟨herr, s, hs, -, -⟩ | ⟨d, hd, hsql, hrows, htot⟩
  · exact Or.inl ⟨herr, s, hs⟩
  · exact Or.inr ⟨d, hd, hsql, hrows, htot⟩

/-- C10 witness: the shape theorem applied to a concrete one-item run. -/
theorem c10_witness :
    ([qrAcc] : List QueryResult).length = (simplePlan "oi").length ∧
    (([qrAcc] : List QueryResult).get ⟨0, Nat.zero_lt_one⟩).subquestion =
      ((simplePlan "oi").get ⟨0, Nat.zero_lt_one⟩).question := by
  obtain ⟨-, hlen, hfields⟩ :=
    c10_pipeline_result_shape (fun _ => oAccept) "oi" (simplePlan "oi")
      [qrAcc] (by decide)
  exact ⟨hlen, (hfields 0 Nat.zero_lt_one Nat.zero_lt_one).2.2.2.1⟩

/-! ## C7 — the plan builder -/

/-- C7: the plan builder is a pure function of the question text; it
returns the fixed three-item report shape exactly when the question
mentions the report keyword or combines the broad temporal phrase with a
`20xx` year token, and otherwise the one-item simple shape whose
sub-question is the original question; no other cardinality occurs. -/
theorem c7_plan_builder (q : String) :
    ((build_fixed_plan_for_question q).length = 3 ↔
      (mentionsReport (lowerL q.data) ||
        (broadHowWas (lowerL q.data) && mentionsYear (lowerL q.data))) =
        true) ∧
    ((build_fixed_plan_for_question q).length = 1 ↔
      (mentionsReport (lowerL q.data) ||
        (broadHowWas (lowerL q.data) && mentionsYear (lowerL q.data))) =
        false) ∧
    (is_year_report q = true →
      build_fixed_plan_for_question q = reportPlan) ∧
    (is_year_report q = false →
      build_fixed_plan_for_question q =
        [⟨"q1", "Pergunta principal", q,
          "Responder diretamente à pergunta do usuário"⟩]) ∧
    (∀ q' : String, q' = q →
      build_fixed_plan_for_question q' = build_fixed_plan_for_question q) := by
  have hdef : is_year_report q =
      (mentionsReport (lowerL q.data) ||
        (broadHowWas (lowerL q.data) && mentionsYear (lowerL q.data))) := rfl
  have hbuild : build_fixed_plan_for_question q =
      if is_year_report q = true then reportPlan else simplePlan q := rfl
  by_cases h0 : is_year_report q = true
  · have h := hdef.symm.trans h0
    rw [hbuild, if_pos h0]
    refine ⟨by simp [h, reportPlan], by simp [h, reportPlan], fun _ => rfl,
      fun hf => absurd (h0.symm.trans hf) (fun hh => Bool.noConfusion hh),
      fun q' hq => by rw [hq, hbuild, if_pos h0]⟩
  · have h0' : is_year_report q = false := Bool.eq_false_iff.mpr h0
    have h := hdef.symm.trans h0'
    rw [hbuild, if_neg h0]
    refine ⟨by simp [h, simplePlan], by simp [h, simplePlan],
      fun ht => absurd (h0'.symm.trans ht) (fun hh => Bool.noConfusion hh),
      fun _ => rfl, fun q' hq => by rw [hq, hbuild, if_neg h0]⟩

/-- C7 witness: the builder applied to concrete report-shaped and
simple-shaped questions. -/
theorem c7_witness :
    build_fixed_plan_for_question "Como foi 2024?" = reportPlan ∧
    build_fixed_plan_for_question "Quanto eu faturei em 2024?" =
      [⟨"q1", "Pergunta principal", "Quanto eu faturei em 2024?",
        "Responder diretamente à pergunta do usuário"⟩] :=
  ⟨(c7_plan_builder "Como foi 2024?").2.2.1 (by decide),
   (c7_plan_builder "Quanto eu faturei em 2024?").2.2.2.1 (by decide)⟩

/-- C8 counterexample: in a report run with one failed item, debug_sql is
not the concatenation of the accepted SQL statements with their titles —
it also contains an error block for the failed item. -/
theorem c8_counterexample :
    run_agent true oC8fam aC8 "relatório" =
      .ok ⟨"laudo", some c8DebugCode⟩ ∧
    run_analysis_pipeline oC8fam "relatório" = .ok (reportPlan, c8Results) ∧
    specDebugSql c8Results = some c8DebugSpec ∧
    c8DebugCode ≠ c8DebugSpec ∧
    containsSubL "(erro)".data c8DebugCode.data = true := by
  decide

/-- C8 (amended): for a report plan whose prose generation succeeds,
debug_sql joins one block per QueryResult — `-- title\nsql` for accepted
items and `-- title (erro)\n-- error` for failed ones (the map `blockOf`);
for a simple plan it is the single accepted statement without a title; and
a successful pipeline always has at least one succeeded item, so the
"none succeeded" case never reaches an AgentAnswer. -/
theorem c8_debug_sql :
    (∀ (O : String → Oracle) (A : AnswerOracle) (q : String)
       (plan : List PlanItem) (results : List QueryResult) (answer : String),
      run_analysis_pipeline O q = .ok (plan, results) →
      plan.length ≠ 1 →
      A.report q plan results = .ok answer →
      run_agent true O A q =
        .ok ⟨answer,
          if (results.filterMap blockOf).isEmpty then none
          else some (String.intercalate "\n\n" (results.filterMap blockOf))⟩) ∧
    (∀ (O : String → Oracle) (A : AnswerOracle) (q : String)
       (plan : List PlanItem) (qr : QueryResult) (answer : String),
      run_analysis_pipeline O q = .ok (plan, [qr]) →
      plan.length = 1 →
      A.simple q qr.sql qr.rows = .ok answer →
      qr.error = none ∧ run_agent true O A q = .ok ⟨answer, qr.sql⟩) ∧
    (∀ (O : String → Oracle) (q : String) (plan : List PlanItem)
       (results : List QueryResult),
      run_analysis_pipeline O q = .ok (plan, results) →
      ∃ r ∈ results, r.error = none) := by
  have hsome : ∀ (O : String → Oracle) (q : String) (plan : List PlanItem)
      (results : List QueryResult),
      run_analysis_pipeline O q = .ok (plan, results) →
      ∃ r ∈ results, r.error = none := by
    intro O q plan results hpipe
    obtain ⟨-, -, hall⟩ := run_analysis_pipeline_ok_inv hpipe
    obtain ⟨r, hr, hp⟩ := (List.all_eq_false).mp hall
    exact ⟨r, hr, Option.not_isSome_iff_eq_none.mp hp⟩
  refine ⟨?_, ?_, hsome⟩
  · intro O A q plan results answer hpipe hlen hrep
    have hblk : agentTryBlock A q plan results =
        .ok (answer,
          if (results.filterMap blockOf).isEmpty then none
          else some (String.intercalate "\n\n" (results.filterMap blockOf))) := by
      unfold agentTryBlock
      rw [if_neg hlen, hrep]
    unfold run_agent
    rw [if_neg (fun hh => Bool.noConfusion hh)]
    rw [hpipe]
    dsimp only
    rw [hblk]
  · intro O A q plan qr answer hpipe hlen hsimp
    obtain ⟨r, hr, herr⟩ := hsome O q plan [qr] hpipe
    have hrq : r = qr := List.mem_singleton.mp hr
    subst hrq
    have hblk : agentTryBlock A q plan [r] = .ok (answer, r.sql) := by
      unfold agentTryBlock
      rw [if_pos hlen]
      simp only [List.head?]
      rw [show optTruthy r.error = false from by rw [herr]; rfl]
      rw [if_neg (fun hh => Bool.noConfusion hh)]
      rw [hsimp]
    refine ⟨herr, ?_⟩
    unfold run_agent
    rw [if_neg (fun hh => Bool.noConfusion hh)]
    rw [hpipe]
    dsimp only
    rw [hblk]

/-- C8 witness: the amended statement applied to a concrete simple-plan
run. -/
theorem c8_witness :
    qrAcc.error = none ∧
    run_agent true (fun _ => oAccept) aC8 "oi" = .ok ⟨"s", qrAcc.sql⟩ :=
  c8_debug_sql.2.1 (fun _ => oAccept) aC8 "oi" (simplePlan "oi") qrAcc "s"
    (by decide) (by decide) (by decide)

/-! ### Character-level lemmas -/
lemma isCls_of_alpha {c : Char} (h : isAsciiAlphaCh c = true) :
    isCls c = true := by
  unfold isCls
  rw [h]
  rfl

lemma lowerCh_of_isSpace {c : Char} (h : isSpaceCh c = true) : lowerCh c = c := by
  simp only [isSpaceCh, Bool.or_eq_true, decide_eq_true_eq] at h
  rcases h with ((((h | h) | h) | h) | h) | h <;> subst h <;> decide

lemma not_isSpace_of_lowerCh {c l : Char} (h : lowerCh c = l)
    (hl : isSpaceCh l = false) : isSpaceCh c = false := by
  by_cases hs : isSpaceCh c = true
  · rw [lowerCh_of_isSpace hs] at h
    rw [h] at hs
    rw [hs] at hl
    exact absurd hl (fun hh => Bool.noConfusion hh)
  · exact Bool.eq_false_iff.mpr hs

lemma isCls_of_isSpace {c : Char} (h : isSpaceCh c = true) : isCls c = true := by
  simp [isCls, h]

lemma isCls_of_lowerCh_lowerAlpha {c l : Char} (h : lowerCh c = l)
    (hl : isAsciiLowerCh l = true) : isCls c = true := by
  unfold lowerCh at h
  cases hf : lowerTable.find? (fun p => p.1 = c) with
  | none =>
    rw [hf] at h
    subst h
    exact isCls_of_alpha (by unfold isAsciiAlphaCh; rw [hl, Bool.or_true])
  | some p =>
    rw [hf] at h
    have hmem := List.mem_of_find?_eq_some hf
    have hp := List.find?_some hf
    have hc : p.1 = c := of_decide_eq_true hp
    subst hc
    subst h
    fin_cases hmem <;> first
    | decide
    | (exact absurd hl (by decide))

/-! ### `matchLit` lemmas -/
lemma matchLit_sound :
    ∀ (lit s r : List Char), matchLit lit s = some r →
      ∃ t, s = t ++ r ∧ lowerL t = lit := by
  intro lit
  induction lit with
  | nil =>
    intro s r h
    rw [matchLit] at h
    cases h
    exact ⟨[], rfl, rfl⟩
  | cons l ls ih =>
    intro s r h
    cases s with
    | nil => exact absurd h (fun hh => Option.noConfusion hh)
    | cons c cs =>
      rw [matchLit] at h
      split_ifs at h with hc
      · obtain ⟨t, ht, hlow⟩ := ih cs r h
        refine ⟨c :: t, by rw [List.cons_append, ht], ?_⟩
        simp only [lowerL, List.map_cons] at hlow ⊢
        rw [hc, hlow]

lemma matchLit_complete :
    ∀ (t lit r : List Char), lowerL t = lit → matchLit lit (t ++ r) = some r := by
  intro t
  induction t with
  | nil =>
    intro lit r h
    cases h
    rfl
  | cons c cs ih =>
    intro lit r h
    simp only [lowerL, List.map_cons] at h
    subst h
    rw [List.cons_append, matchLit, if_pos rfl]
    exact ih _ r rfl

lemma matchLit_length {lit s r : List Char} (h : matchLit lit s = some r) :
    s.length = lit.length + r.length := by
  obtain ⟨t, ht, hlow⟩ := matchLit_sound lit s r h
  subst ht
  have : t.length = lit.length := by
    rw [← hlow]; simp [lowerL]
  simp [this]

lemma spanSpaces_append :
    ∀ (w r : List Char), w.all isSpaceCh = true → headNotSpace r →
      spanSpaces (w ++ r) = (w, r) := by
  intro w
  induction w with
  | nil =>
    intro r _ hr
    cases r with
    | nil => rfl
    | cons c cs =>
      simp only [headNotSpace] at hr
      simp only [spanSpaces, List.nil_append, Prod.mk.injEq]
      exact ⟨List.takeWhile_cons_of_neg (by simp [hr]),
        List.dropWhile_cons_of_neg (by simp [hr])⟩
  | cons c cs ih =>
    intro r hw hr
    simp only [List.all_cons, Bool.and_eq_true] at hw
    have ihr := ih r hw.2 hr
    rw [Prod.mk.injEq] at ihr
    simp only [spanSpaces, Prod.mk.injEq] at ihr ⊢
    rw [List.cons_append]
    exact ⟨by rw [List.takeWhile_cons_of_pos hw.1, ihr.1],
      by rw [List.dropWhile_cons_of_pos hw.1, ihr.2]⟩

lemma headNotSpace_dropWhile (s : List Char) :
    headNotSpace (s.dropWhile isSpaceCh) := by
  have h := List.head?_dropWhile_not isSpaceCh s
  cases hd : (s.dropWhile isSpaceCh) with
  | nil => trivial
  | cons c cs =>
    rw [hd] at h
    simpa [headNotSpace] using h

lemma spanSpaces_sound {s a b : List Char} (h : spanSpaces s = (a, b)) :
    s = a ++ b ∧ a.all isSpaceCh = true ∧ headNotSpace b := by
  have ha : a = s.takeWhile isSpaceCh := by
    have := congrArg Prod.fst h; exact this.symm
  have hb : b = s.dropWhile isSpaceCh := by
    have := congrArg Prod.snd h; exact this.symm
  subst ha; subst hb
  exact ⟨(List.takeWhile_append_dropWhile isSpaceCh s).symm,
    List.all_takeWhile, headNotSpace_dropWhile s⟩

/-! ### `tailMatch` lemmas -/
lemma headNotSpace_append_of_lowerL {t rest : List Char} {l : Char}
    {ls : List Char} (h : lowerL t = l :: ls) (hl : isSpaceCh l = false) :
    headNotSpace (t ++ rest) := by
  cases t with
  | nil => exact absurd h (fun hh => List.noConfusion hh)
  | cons c cs =>
    simp only [lowerL, List.map_cons, List.cons.injEq] at h
    rw [List.cons_append]
    exact not_isSpace_of_lowerCh h.1 hl

lemma ne_nil_of_not_isEmpty {l : List Char} (h : ¬(l.isEmpty = true)) :
    l ≠ [] :=
  fun hnil => h (by rw [hnil]; rfl)

lemma not_isEmpty_of_ne_nil {l : List Char} (h : l ≠ []) :
    ¬(l.isEmpty = true) :=
  fun he => h (List.isEmpty_iff.mp he)

lemma tailMatch_sound {s r : List Char} (h : tailMatch s = some r) :
    ∃ w3 wi w4 ro, s = w3 ++ (wi ++ (w4 ++ (ro ++ r))) ∧
      w3 ≠ [] ∧ w3.all isSpaceCh = true ∧ lowerL wi = "with".data ∧
      w4 ≠ [] ∧ w4.all isSpaceCh = true ∧ lowerL ro = "rollup".data := by
  unfold tailMatch at h
  cases hsp : spanSpaces s with
  | mk w3 r1 =>
    rw [hsp] at h
    dsimp only at h
    obtain ⟨hs1, hall1, hns1⟩ := spanSpaces_sound hsp
    split_ifs at h with hw3e
    cases hml : matchLit "with".data r1 with
    | none => rw [hml] at h; exact absurd h (fun hh => Option.noConfusion hh)
    | some r2 =>
      rw [hml] at h
      dsimp only at h
      cases hsp2 : spanSpaces r2 with
      | mk w4 r3 =>
        rw [hsp2] at h
        dsimp only at h
        obtain ⟨hs2, hall2, hns2⟩ := spanSpaces_sound hsp2
        split_ifs at h with hw4e
        obtain ⟨wi, hwi, hwil⟩ := matchLit_sound _ _ _ hml
        obtain ⟨ro, hro, hrol⟩ := matchLit_sound _ _ _ h
        refine ⟨w3, wi, w4, ro, ?_,
          ne_nil_of_not_isEmpty hw3e, hall1, hwil,
          ne_nil_of_not_isEmpty hw4e, hall2, hrol⟩
        rw [hs1, hwi, hs2, hro]

lemma tailMatch_complete {w3 wi w4 ro r : List Char}
    (h3 : w3 ≠ []) (ha3 : w3.all isSpaceCh = true)
    (hwi : lowerL wi = "with".data)
    (h4 : w4 ≠ []) (ha4 : w4.all isSpaceCh = true)
    (hro : lowerL ro = "rollup".data) :
    tailMatch (w3 ++ (wi ++ (w4 ++ (ro ++ r)))) = some r := by
  unfold tailMatch
  have hsp1 : spanSpaces (w3 ++ (wi ++ (w4 ++ (ro ++ r)))) =
      (w3, wi ++ (w4 ++ (ro ++ r))) :=
    spanSpaces_append w3 _ ha3 (headNotSpace_append_of_lowerL hwi (by decide))
  rw [hsp1]
  dsimp only
  rw [if_neg (not_isEmpty_of_ne_nil h3)]
  rw [matchLit_complete wi _ _ hwi]
  dsimp only
  have hsp2 : spanSpaces (w4 ++ (ro ++ r)) = (w4, ro ++ r) :=
    spanSpaces_append w4 _ ha4 (headNotSpace_append_of_lowerL hro (by decide))
  rw [hsp2]
  dsimp only
  rw [if_neg (not_isEmpty_of_ne_nil h4)]
  exact matchLit_complete ro _ _ hro

/-! ### `capSearch` lemmas -/
lemma capSearch_sound :
    ∀ {s cap r : List Char}, capSearch s = some (cap, r) →
      cap ≠ [] ∧ cap.all isCls = true ∧
      ∃ t, s = cap ++ t ∧ tailMatch t = some r := by
  intro s
  induction s with
  | nil =>
    intro cap r h
    exact absurd h (fun hh => Option.noConfusion hh)
  | cons x rest ih =>
    intro cap r h
    rw [capSearch] at h
    split_ifs at h with hx
    cases htm : tailMatch rest with
    | some r' =>
      rw [htm] at h
      cases h
      exact ⟨fun hh => List.noConfusion hh, by simp [hx],
        rest, rfl, htm⟩
    | none =>
      rw [htm] at h
      cases hcs : capSearch rest with
      | none =>
        rw [hcs] at h
        exact absurd h (fun hh => Option.noConfusion hh)
      | some p =>
        obtain ⟨c0, r0⟩ := p
        rw [hcs] at h
        cases h
        obtain ⟨hne, hcls, t, ht, htm'⟩ := ih hcs
        exact ⟨fun hh => List.noConfusion hh,
          by simp [hx, hcls], t, by rw [List.cons_append, ht], htm'⟩

lemma capSearch_complete :
    ∀ (cap : List Char) {t r : List Char}, cap ≠ [] → cap.all isCls = true →
      tailMatch t = some r → (capSearch (cap ++ t)).isSome = true := by
  intro cap
  induction cap with
  | nil => intro t r h _ _; exact absurd rfl h
  | cons x cs ih =>
    intro t r _ hcls htm
    simp only [List.all_cons, Bool.and_eq_true] at hcls
    rw [List.cons_append, capSearch]
    rw [if_pos hcls.1]
    cases htm0 : tailMatch (cs ++ t) with
    | some r0 => exact rfl
    | none =>
      cases cs with
      | nil =>
        rw [List.nil_append] at htm0
        rw [htm0] at htm
        exact absurd htm (fun hh => Option.noConfusion hh)
      | cons y ys =>
        have := ih (fun hh => List.noConfusion hh) hcls.2 htm
        cases hcs2 : capSearch ((y :: ys) ++ t) with
        | none => rw [hcs2] at this; exact absurd this (fun hh => Bool.noConfusion hh)
        | some p => obtain ⟨c0, r0⟩ := p; exact rfl

/-- The capture search is shortest-first: a strictly shorter nonempty split
point has no `\s+with\s+rollup` tail after it. -/
lemma capSearch_shortest :
    ∀ {s cap r : List Char}, capSearch s = some (cap, r) →
      ∀ {c t : List Char}, s = c ++ t → c ≠ [] → c.length < cap.length →
      tailMatch t = none := by
  intro s
  induction s with
  | nil =>
    intro cap r h
    exact absurd h (fun hh => Option.noConfusion hh)
  | cons x rest ih =>
    intro cap r h c t hsplit hcne hclen
    rw [capSearch] at h
    split_ifs at h with hx
    cases htm : tailMatch rest with
    | some r' =>
      rw [htm] at h
      cases h
      cases c with
      | nil => exact absurd rfl hcne
      | cons a as =>
        simp only [List.length_cons, List.length_nil,
          List.length_singleton] at hclen
        omega
    | none =>
      rw [htm] at h
      cases hcs : capSearch rest with
      | none => rw [hcs] at h; exact absurd h (fun hh => Option.noConfusion hh)
      | some p =>
        obtain ⟨c0, r0⟩ := p
        rw [hcs] at h
        cases h
        cases c with
        | nil => exact absurd rfl hcne
        | cons a as =>
          rw [List.cons_append] at hsplit
          injection hsplit with hax hrest
          cases as with
          | nil =>
            rw [List.nil_append] at hrest
            rw [← hrest]
            exact htm
          | cons b bs =>
            refine ih hcs hrest (fun hh => List.noConfusion hh) ?_
            simp only [List.length_cons] at hclen ⊢
            omega

/-- The capture returned by `capSearch` has no internal tail: otherwise the
shorter capture ending before that tail would have been returned. -/
lemma capSearch_noInnerTail {s cap r : List Char}
    (h : capSearch s = some (cap, r)) : CapNoInnerTail cap := by
  intro c1 w wi w' ro c2 hdec hc1 hw haw hwi hw' haw' hro
  obtain ⟨-, -, t, hst, htm⟩ := capSearch_sound h
  have hs2 : s = c1 ++ (w ++ (wi ++ (w' ++ (ro ++ (c2 ++ t))))) := by
    rw [hst, hdec]
    simp [List.append_assoc]
  have hlen : c1.length < cap.length := by
    rw [hdec]
    have hwlen : 0 < w.length := List.length_pos.mpr hw
    simp only [List.length_append]
    omega
  have hnone := capSearch_shortest h hs2 hc1 hlen
  rw [tailMatch_complete hw haw hwi hw' haw' hro] at hnone
  exact Option.noConfusion hnone

/-! ### `w2Loop` lemmas -/
lemma append_singleton_split {A B C : List Char} {x : Char}
    (h : A ++ B = C ++ [x]) (hB : B ≠ []) :
    ∃ B', B = B' ++ [x] ∧ A ++ B' = C := by
  rcases List.eq_nil_or_concat B with hnil | ⟨B', b, hb⟩
  · exact absurd hnil hB
  · rw [List.concat_eq_append] at hb
    subst hb
    rw [← List.append_assoc] at h
    obtain ⟨h1, h2⟩ := List.append_inj' h rfl
    injection h2 with hbx
    subst hbx
    exact ⟨B', rfl, h1⟩

lemma w2Loop_sound :
    ∀ (wrev given r : List Char) {w2f cap a : List Char},
      w2Loop wrev given r = some (w2f, cap, a) →
      ∃ gv, wrev.reverse ++ given = w2f ++ gv ∧ w2f ≠ [] ∧
        capSearch (gv ++ r) = some (cap, a) := by
  intro wrev
  induction wrev with
  | nil =>
    intro given r w2f cap a h
    exact absurd h (fun hh => Option.noConfusion hh)
  | cons x wrest ih =>
    intro given r w2f cap a h
    cases wrest with
    | nil =>
      rw [w2Loop] at h
      cases hcs : capSearch (given ++ r) with
      | none => rw [hcs] at h; exact absurd h (fun hh => Option.noConfusion hh)
      | some p =>
        obtain ⟨c0, a0⟩ := p
        rw [hcs] at h
        cases h
        exact ⟨given, rfl, fun hh => List.noConfusion hh, hcs⟩
    | cons y wrest' =>
      rw [w2Loop] at h
      cases hcs : capSearch (given ++ r) with
      | some p =>
        obtain ⟨c0, a0⟩ := p
        rw [hcs] at h
        cases h
        exact ⟨given, rfl,
          by simp, hcs⟩
      | none =>
        rw [hcs] at h
        obtain ⟨gv, hgv, hne, hcs'⟩ := ih (x :: given) r h
        refine ⟨gv, ?_, hne, hcs'⟩
        rw [← hgv]
        simp

lemma w2Loop_complete :
    ∀ (wrev given r : List Char),
      (∃ keep gv, wrev.reverse = keep ++ gv ∧ keep ≠ [] ∧
        (capSearch ((gv ++ given) ++ r)).isSome = true) →
      (w2Loop wrev given r).isSome = true := by
  intro wrev
  induction wrev with
  | nil =>
    intro given r ⟨keep, gv, hsplit, hkeep, _⟩
    simp only [List.reverse_nil] at hsplit
    exact absurd (List.append_eq_nil.mp hsplit.symm).1 hkeep
  | cons x wrest ih =>
    intro given r ⟨keep, gv, hsplit, hkeep, hcs⟩
    cases wrest with
    | nil =>
      simp only [List.reverse_cons, List.reverse_nil, List.nil_append] at hsplit
      cases keep with
      | nil => exact absurd rfl hkeep
      | cons k ks =>
        rw [List.cons_append] at hsplit
        injection hsplit with hk hrest
        have hgv : gv = [] := (List.append_eq_nil.mp hrest.symm).2
        subst hgv
        rw [List.nil_append] at hcs
        rw [w2Loop]
        cases hc : capSearch (given ++ r) with
        | none =>
          rw [hc] at hcs
          exact absurd hcs (fun hh => Bool.noConfusion hh)
        | some p =>
          obtain ⟨c0, a0⟩ := p
          rfl
    | cons y wrest' =>
      rw [w2Loop]
      cases hc : capSearch (given ++ r) with
      | some p =>
        obtain ⟨c0, a0⟩ := p
        rfl
      | none =>
        dsimp only
        have hrev : (x :: y :: wrest').reverse =
            (y :: wrest').reverse ++ [x] := by simp
        rw [hrev] at hsplit
        cases gv with
        | nil =>
          rw [List.append_nil] at hsplit
          rw [List.nil_append] at hcs
          rw [hc] at hcs
          exact absurd hcs (fun hh => Bool.noConfusion hh)
        | cons g gs =>
          obtain ⟨gv', hgv, hkeep'⟩ :=
            append_singleton_split hsplit.symm
              (fun hh => List.noConfusion hh)
          refine ih (x :: given) r ⟨keep, gv', hkeep'.symm, hkeep, ?_⟩
          have : gv' ++ (x :: given) = (g :: gs) ++ given := by
            rw [hgv]
            simp
          rw [this]
          exact hcs

/-! ### `matchRollupAt` lemmas -/
lemma ne_nil_of_lowerL {t : List Char} {l : Char} {ls : List Char}
    (h : lowerL t = l :: ls) : t ≠ [] := by
  intro hnil
  rw [hnil] at h
  exact List.noConfusion h

lemma matchRollupAt_sound {s cap a : List Char}
    (h : matchRollupAt s = some (cap, a)) :
    ∃ m, s = m ++ a ∧ IsRollupOcc m cap ∧ m ≠ [] ∧ CapNoInnerTail cap := by
  unfold matchRollupAt at h
  cases hg : matchLit "group".data s with
  | none => rw [hg] at h; exact absurd h (fun hh => Option.noConfusion hh)
  | some r1 =>
    rw [hg] at h
    dsimp only at h
    cases hsp1 : spanSpaces r1 with
    | mk w1 r2 =>
      rw [hsp1] at h
      dsimp only at h
      obtain ⟨hr1, hall1, -⟩ := spanSpaces_sound hsp1
      split_ifs at h with hw1e
      cases hb : matchLit "by".data r2 with
      | none => rw [hb] at h; exact absurd h (fun hh => Option.noConfusion hh)
      | some r3 =>
        rw [hb] at h
        dsimp only at h
        cases hsp2 : spanSpaces r3 with
        | mk w2 r4 =>
          rw [hsp2] at h
          dsimp only at h
          obtain ⟨hr3, hall2, -⟩ := spanSpaces_sound hsp2
          split_ifs at h with hw2e
          cases hloop : w2Loop w2.reverse [] r4 with
          | none => rw [hloop] at h; exact absurd h (fun hh => Option.noConfusion hh)
          | some t =>
            obtain ⟨w2f, cap0, a0⟩ := t
            rw [hloop] at h
            cases h
            obtain ⟨gv, hgvsplit, hw2fne, hcs⟩ := w2Loop_sound _ _ _ hloop
            rw [List.reverse_reverse, List.append_nil] at hgvsplit
            obtain ⟨hcapne, hcapcls, t2, ht2, htm⟩ := capSearch_sound hcs
            obtain ⟨w3, wi, w4, ro, htail, h3, ha3, hwil, h4, ha4, hrol⟩ :=
              tailMatch_sound htm
            obtain ⟨g, hgs, hgl⟩ := matchLit_sound _ _ _ hg
            obtain ⟨b, hbs, hbl⟩ := matchLit_sound _ _ _ hb
            refine ⟨g ++ w1 ++ b ++ w2f ++ cap ++ w3 ++ wi ++ w4 ++ ro,
              ?_, ?_, ?_, capSearch_noInnerTail hcs⟩
            · rw [hgs, hr1, hbs, hr3, hgvsplit]
              simp only [List.append_assoc]
              rw [ht2, htail]
            · refine ⟨g, w1, b, w2f, w3, wi, w4, ro, rfl, hgl, hbl, hwil,
                hrol, ne_nil_of_not_isEmpty hw1e, hall1, hw2fne, ?_,
                h3, ha3, h4, ha4, hcapne, hcapcls⟩
              rw [hgvsplit] at hall2
              simp only [List.all_append, Bool.and_eq_true] at hall2
              exact hall2.1
            · intro hnil
              have hgne := ne_nil_of_lowerL hgl
              cases g with
              | nil => exact hgne rfl
              | cons gc gcs => exact List.noConfusion hnil

lemma all_of_dropWhile_nil {p : Char → Bool} :
    ∀ {l : List Char}, l.dropWhile p = [] → l.all p = true := by
  intro l
  induction l with
  | nil => intro _; rfl
  | cons c cs ih =>
    intro h
    by_cases hc : p c = true
    · rw [List.dropWhile_cons_of_pos hc] at h
      simp [hc, ih h]
    · rw [List.dropWhile_cons_of_neg (by simp [hc])] at h
      exact List.noConfusion h

lemma matchRollupAt_complete {m cap : List Char} (hocc : IsRollupOcc m cap) :
    ∀ (z : List Char), (matchRollupAt (m ++ z)).isSome = true := by
  obtain ⟨g, w1, b, w2, w3, wi, w4, ro, hm, hgl, hbl, hwil, hrol, h1, ha1,
    h2, ha2, h3, ha3, h4, ha4, hcne, hccls⟩ := hocc
  intro z
  subst hm
  have hassoc : (g ++ w1 ++ b ++ w2 ++ cap ++ w3 ++ wi ++ w4 ++ ro) ++ z =
      g ++ (w1 ++ (b ++ (w2 ++ (cap ++ (w3 ++ (wi ++ (w4 ++ (ro ++ z)))))))) := by
    simp [List.append_assoc]
  rw [hassoc]
  unfold matchRollupAt
  rw [matchLit_complete g _ _ hgl]
  dsimp only
  rw [spanSpaces_append w1 _ ha1 (headNotSpace_append_of_lowerL hbl (by decide))]
  dsimp only
  rw [if_neg (not_isEmpty_of_ne_nil h1)]
  rw [matchLit_complete b _ _ hbl]
  dsimp only
  have htm : tailMatch (w3 ++ (wi ++ (w4 ++ (ro ++ z)))) = some z :=
    tailMatch_complete h3 ha3 hwil h4 ha4 hrol
  by_cases hcsp : cap.all isSpaceCh = true
  · have hsp2 : spanSpaces (w2 ++ (cap ++ (w3 ++ (wi ++ (w4 ++ (ro ++ z)))))) =
        (w2 ++ (cap ++ w3), wi ++ (w4 ++ (ro ++ z))) := by
      have : w2 ++ (cap ++ (w3 ++ (wi ++ (w4 ++ (ro ++ z))))) =
          (w2 ++ (cap ++ w3)) ++ (wi ++ (w4 ++ (ro ++ z))) := by
        simp [List.append_assoc]
      rw [this]
      refine spanSpaces_append _ _ ?_
        (headNotSpace_append_of_lowerL hwil (by decide))
      simp only [List.all_append]
      rw [ha2, hcsp, ha3]
      rfl
    rw [hsp2]
    dsimp only
    rw [if_neg (not_isEmpty_of_ne_nil (by
      intro hh
      exact h2 (List.append_eq_nil.mp hh).1))]
    have hloop : (w2Loop (w2 ++ (cap ++ w3)).reverse []
        (wi ++ (w4 ++ (ro ++ z)))).isSome = true := by
      refine w2Loop_complete _ _ _ ⟨w2, cap ++ w3, by rw [List.reverse_reverse], h2, ?_⟩
      have : ((cap ++ w3) ++ []) ++ (wi ++ (w4 ++ (ro ++ z))) =
          cap ++ (w3 ++ (wi ++ (w4 ++ (ro ++ z)))) := by
        simp [List.append_assoc]
      rw [this]
      exact capSearch_complete cap hcne hccls htm
    cases hl : w2Loop (w2 ++ (cap ++ w3)).reverse [] (wi ++ (w4 ++ (ro ++ z))) with
    | none => rw [hl] at hloop; exact absurd hloop (fun hh => Bool.noConfusion hh)
    | some t => obtain ⟨w2f, c0, a0⟩ := t; rfl
  · obtain ⟨cs, hcs⟩ : ∃ cs, cap.takeWhile isSpaceCh = cs := ⟨_, rfl⟩
    obtain ⟨dct, hdct⟩ : ∃ dct, cap.dropWhile isSpaceCh = dct := ⟨_, rfl⟩
    have hdne : dct ≠ [] :=
      fun hh => hcsp (all_of_dropWhile_nil (by rw [hdct]; exact hh))
    have hcapsplit : cap = cs ++ dct := by
      rw [← hcs, ← hdct, List.takeWhile_append_dropWhile]
    have hcsall : cs.all isSpaceCh = true := by
      rw [← hcs]; exact List.all_takeWhile
    have hdhead : headNotSpace (dct ++ (w3 ++ (wi ++ (w4 ++ (ro ++ z))))) := by
      cases dct with
      | nil => exact absurd rfl hdne
      | cons d ds =>
        have hh := headNotSpace_dropWhile cap
        rw [hdct] at hh
        rw [List.cons_append]
        exact hh
    have hsp2 : spanSpaces (w2 ++ (cap ++ (w3 ++ (wi ++ (w4 ++ (ro ++ z)))))) =
        (w2 ++ cs, dct ++ (w3 ++ (wi ++ (w4 ++ (ro ++ z))))) := by
      have harr : w2 ++ (cap ++ (w3 ++ (wi ++ (w4 ++ (ro ++ z))))) =
          (w2 ++ cs) ++ (dct ++ (w3 ++ (wi ++ (w4 ++ (ro ++ z))))) := by
        rw [hcapsplit]
        simp [List.append_assoc]
      rw [harr]
      refine spanSpaces_append _ _ ?_ hdhead
      simp only [List.all_append]
      rw [ha2, hcsall]
      rfl
    rw [hsp2]
    dsimp only
    rw [if_neg (not_isEmpty_of_ne_nil
      (fun hh => h2 (List.append_eq_nil.mp hh).1))]
    have hloop : (w2Loop (w2 ++ cs).reverse []
        (dct ++ (w3 ++ (wi ++ (w4 ++ (ro ++ z)))))).isSome = true := by
      refine w2Loop_complete _ _ _ ⟨w2, cs,
        by rw [List.reverse_reverse], h2, ?_⟩
      have harr2 : (cs ++ []) ++ (dct ++ (w3 ++ (wi ++ (w4 ++ (ro ++ z))))) =
          cap ++ (w3 ++ (wi ++ (w4 ++ (ro ++ z)))) := by
        rw [List.append_nil, hcapsplit]
        simp [List.append_assoc]
      rw [harr2]
      exact capSearch_complete cap hcne hccls htm
    cases hl : w2Loop (w2 ++ cs).reverse []
        (dct ++ (w3 ++ (wi ++ (w4 ++ (ro ++ z))))) with
    | none => rw [hl] at hloop; exact absurd hloop (fun hh => Bool.noConfusion hh)
    | some t => obtain ⟨w2f, c0, a0⟩ := t; rfl

/-! ### `findRollup` and `subRollupF` lemmas -/
lemma findRollup_append_of_isSome {pre suf : List Char}
    (hsuf : (matchRollupAt suf).isSome = true) :
    findRollup (pre ++ suf) = true := by
  induction pre with
  | nil =>
    cases suf with
    | nil => exact absurd hsuf (by decide)
    | cons c cs =>
      rw [List.nil_append, findRollup, hsuf]
      rfl
  | cons c pre' ih =>
    rw [List.cons_append, findRollup, ih, Bool.or_true]

lemma findRollup_of_hasOcc {s : List Char} (h : HasRollupOcc s) :
    findRollup s = true := by
  obtain ⟨pre, m, cap, post, hs, hocc⟩ := h
  rw [hs, List.append_assoc]
  exact findRollup_append_of_isSome (matchRollupAt_complete hocc post)

lemma hasOcc_of_findRollup : ∀ {s : List Char}, findRollup s = true →
    HasRollupOcc s := by
  intro s
  induction s with
  | nil => intro h; exact absurd h (by decide)
  | cons c rest ih =>
    intro h
    rw [findRollup, Bool.or_eq_true] at h
    rcases h with h | h
    · obtain ⟨⟨cap, a⟩, hsome⟩ := Option.isSome_iff_exists.mp h
      obtain ⟨m, hm, hocc, -, -⟩ := matchRollupAt_sound hsome
      exact ⟨[], m, cap, a, by rw [List.nil_append, hm], hocc⟩
    · obtain ⟨pre, m, cap, post, hrest, hocc⟩ := ih h
      exact ⟨c :: pre, m, cap, post, by rw [hrest]; rfl, hocc⟩

lemma not_hasOcc_of_findRollup_false {s : List Char}
    (h : findRollup s = false) : ¬ HasRollupOcc s := by
  intro hocc
  rw [findRollup_of_hasOcc hocc] at h
  exact Bool.noConfusion h

lemma matchRollupAt_after_lt {s cap a : List Char}
    (h : matchRollupAt s = some (cap, a)) : a.length < s.length := by
  obtain ⟨m, hm, -, hne, -⟩ := matchRollupAt_sound h
  rw [hm, List.length_append]
  cases m with
  | nil => exact absurd rfl hne
  | cons x xs => simp

lemma subRollupF_fuel :
    ∀ (k : Nat) (s : List Char), s.length ≤ k →
      ∀ (n m : Nat), s.length ≤ n → s.length ≤ m →
        subRollupF n s = subRollupF m s := by
  intro k
  induction k with
  | zero =>
    intro s hs n m _ _
    have : s = [] := List.length_eq_zero.mp (Nat.le_zero.mp hs)
    subst this
    cases n <;> cases m <;> rfl
  | succ k ih =>
    intro s hs n m hn hm
    cases s with
    | nil => cases n <;> cases m <;> rfl
    | cons c rest =>
      cases n with
      | zero => exact absurd hn (by simp)
      | succ n' =>
        cases m with
        | zero => exact absurd hm (by simp)
        | succ m' =>
          rw [subRollupF, subRollupF]
          cases hmt : matchRollupAt (c :: rest) with
          | some p =>
            obtain ⟨cap, a⟩ := p
            dsimp only
            have hlt := matchRollupAt_after_lt hmt
            rw [ih a (by
                have := hs
                simp only [List.length_cons] at this hlt
                omega)
              n' m'
              (by simp only [List.length_cons] at hn hlt; omega)
              (by simp only [List.length_cons] at hm hlt; omega)]
          | none =>
            dsimp only
            rw [ih rest (by simp only [List.length_cons] at hs; omega)
              n' m'
              (by simp only [List.length_cons] at hn; omega)
              (by simp only [List.length_cons] at hm; omega)]

lemma subRollupF_of_findRollup_false :
    ∀ (s : List Char) (n : Nat), findRollup s = false → subRollupF n s = s := by
  intro s
  induction s with
  | nil => intro n _; cases n <;> rfl
  | cons c rest ih =>
    intro n h
    rw [findRollup] at h
    have h1 : (matchRollupAt (c :: rest)).isSome = false := by
      cases hmt : (matchRollupAt (c :: rest)).isSome with
      | false => rfl
      | true => rw [hmt] at h; exact absurd h (by simp)
    have h2 : findRollup rest = false := by
      cases hf : findRollup rest with
      | false => rfl
      | true => rw [hf] at h; simp at h
    cases n with
    | zero => rfl
    | succ n' =>
      rw [subRollupF]
      cases hmt : matchRollupAt (c :: rest) with
      | some p =>
        rw [hmt] at h1
        exact absurd h1 (by simp)
      | none =>
        dsimp only
        rw [ih n' h2]

lemma subRollupF_first :
    ∀ (s : List Char), findRollup s = true →
      ∃ pre m cap a, s = pre ++ (m ++ a) ∧ IsRollupOcc m cap ∧
        subRollupF s.length s =
          pre ++ (replText cap ++ subRollupF a.length a) := by
  intro s
  induction s with
  | nil => intro h; exact absurd h (by decide)
  | cons c rest ih =>
    intro h
    cases hmt : matchRollupAt (c :: rest) with
    | some p =>
      obtain ⟨cap, a⟩ := p
      obtain ⟨m, hm, hocc, -, -⟩ := matchRollupAt_sound hmt
      refine ⟨[], m, cap, a, by rw [List.nil_append, hm], hocc, ?_⟩
      rw [List.nil_append]
      have hlen : (c :: rest).length = rest.length + 1 := rfl
      rw [hlen, subRollupF, hmt]
      dsimp only
      have hlt := matchRollupAt_after_lt hmt
      rw [subRollupF_fuel rest.length a (by
          simp only [List.length_cons] at hlt; omega)
        rest.length a.length (by
          simp only [List.length_cons] at hlt; omega) (Nat.le_refl _)]
    | none =>
      rw [findRollup, Bool.or_eq_true] at h
      rcases h with h | h
      · rw [hmt] at h
        exact absurd h (by simp)
      · obtain ⟨pre, m, cap, a, hrest, hocc, hsub⟩ := ih h
        refine ⟨c :: pre, m, cap, a, by rw [hrest]; rfl, hocc, ?_⟩
        have hlen : (c :: rest).length = rest.length + 1 := rfl
        rw [hlen, subRollupF, hmt]
        dsimp only
        rw [hsub, List.cons_append]

/-! ### The rewritten text contains no occurrence of the spelling -/

lemma all_isCls_of_all_isSpace {l : List Char} (h : l.all isSpaceCh = true) :
    l.all isCls = true := by
  induction l with
  | nil => rfl
  | cons c cs ih =>
    simp only [List.all_cons, Bool.and_eq_true] at h ⊢
    exact ⟨isCls_of_isSpace h.1, ih h.2⟩

lemma all_isCls_of_lowerL_alpha :
    ∀ {t lit : List Char}, lowerL t = lit → lit.all isAsciiLowerCh = true →
      t.all isCls = true := by
  intro t
  induction t with
  | nil => intro lit _ _; rfl
  | cons c cs ih =>
    intro lit hl ha
    cases lit with
    | nil =>
      simp only [lowerL, List.map_cons] at hl
      exact List.noConfusion hl
    | cons l ls =>
      simp only [lowerL, List.map_cons] at hl
      injection hl with h1 h2
      simp only [List.all_cons, Bool.and_eq_true] at ha ⊢
      exact ⟨isCls_of_lowerCh_lowerAlpha h1 ha.1, ih h2 ha.2⟩

/-- Every character of an occurrence belongs to the bracket class of the
pattern (letters, digits, `_"',.` and whitespace), and an occurrence is
nonempty. -/
lemma occ_all_cls {m cap : List Char} (hocc : IsRollupOcc m cap) :
    m.all isCls = true ∧ m ≠ [] := by
  obtain ⟨g, w1, b, w2, w3, wi, w4, ro, hm, hgl, hbl, hwil, hrol, h1, ha1,
    h2, ha2, h3, ha3, h4, ha4, hcne, hccls⟩ := hocc
  subst hm
  constructor
  · simp only [List.all_append, Bool.and_eq_true]
    exact ⟨⟨⟨⟨⟨⟨⟨⟨all_isCls_of_lowerL_alpha hgl (by decide),
      all_isCls_of_all_isSpace ha1⟩,
      all_isCls_of_lowerL_alpha hbl (by decide)⟩,
      all_isCls_of_all_isSpace ha2⟩, hccls⟩,
      all_isCls_of_all_isSpace ha3⟩,
      all_isCls_of_lowerL_alpha hwil (by decide)⟩,
      all_isCls_of_all_isSpace ha4⟩,
      all_isCls_of_lowerL_alpha hrol (by decide)⟩
  · intro hnil
    have hlen := congrArg List.length hnil
    simp only [List.length_append, List.length_nil] at hlen
    have hclen : 0 < cap.length := List.length_pos.mpr hcne
    omega

/-- A character outside the bracket class separates the text into two
zones that no occurrence can straddle. -/
lemma noOcc_append_bar {X Y : List Char} {k : Char} (hk : isCls k = false)
    (hX : ¬ HasRollupOcc X) (hY : ¬ HasRollupOcc Y) :
    ¬ HasRollupOcc (X ++ ([k] ++ Y)) := by
  rintro ⟨pre, m, cap, post, heq, hocc⟩
  obtain ⟨hmcls, hmne⟩ := occ_all_cls hocc
  rw [List.append_assoc] at heq
  rcases List.append_eq_append_iff.mp heq with ⟨a0, hpre0, hb0⟩ | ⟨c0, hX0, hd0⟩
  · cases a0 with
    | nil =>
      rw [List.nil_append] at hb0
      cases m with
      | nil => exact absurd rfl hmne
      | cons mh mt =>
        rw [List.singleton_append, List.cons_append] at hb0
        injection hb0 with hk1 hb0t
        simp only [List.all_cons, Bool.and_eq_true] at hmcls
        rw [← hk1] at hmcls
        rw [hmcls.1] at hk
        exact Bool.noConfusion hk
    | cons a1 as =>
      rw [List.singleton_append, List.cons_append] at hb0
      injection hb0 with hka hY0
      exact hY ⟨as, m, cap, post,
        by rw [hY0]; simp [List.append_assoc], hocc⟩
  · rcases List.append_eq_append_iff.mp hd0 with
      ⟨a1, hc0, hpost1⟩ | ⟨c1, hm1, hd1⟩
    · exact hX ⟨pre, m, cap, a1,
        by rw [hX0, hc0]; simp [List.append_assoc], hocc⟩
    · cases c1 with
      | nil =>
        have hm1' : m = c0 := by rw [hm1, List.append_nil]
        exact hX ⟨pre, m, cap, [],
          by rw [List.append_nil, hX0, hm1'], hocc⟩
      | cons k1 ks =>
        rw [List.singleton_append, List.cons_append] at hd1
        injection hd1 with hk1 hd1t
        have hkm : k ∈ m := by
          rw [hm1, ← hk1]
          exact List.mem_append_right _ (List.mem_cons_self _ _)
        have hkc := List.all_eq_true.mp hmcls k hkm
        rw [hkc] at hk
        exact Bool.noConfusion hk

lemma dropWhile_suffix_split (p : Char → Bool) (l : List Char) :
    ∃ u, l = u ++ l.dropWhile p :=
  ⟨l.takeWhile p, (List.takeWhile_append_dropWhile p l).symm⟩

lemma rdrop_prefix_split (p : Char → Bool) (l : List Char) :
    ∃ v, l = (l.reverse.dropWhile p).reverse ++ v := by
  refine ⟨(l.reverse.takeWhile p).reverse, ?_⟩
  rw [← List.reverse_append, List.takeWhile_append_dropWhile,
    List.reverse_reverse]

/-- Stripping whitespace and trailing commas yields a contiguous piece of
the original capture. -/
lemma strip_infix (cap : List Char) :
    ∃ u v, cap = u ++ (rstripCommaL (stripL cap) ++ v) := by
  obtain ⟨u1, hu1⟩ := dropWhile_suffix_split isSpaceCh cap
  obtain ⟨v1, hv1⟩ := rdrop_prefix_split isSpaceCh (cap.dropWhile isSpaceCh)
  obtain ⟨v2, hv2⟩ := rdrop_prefix_split (fun c => c = ',') (stripL cap)
  refine ⟨u1, v2 ++ v1, ?_⟩
  have hv1' : cap.dropWhile isSpaceCh = stripL cap ++ v1 := hv1
  have hv2' : stripL cap = rstripCommaL (stripL cap) ++ v2 := hv2
  conv_lhs => rw [hu1, hv1', hv2']
  simp [List.append_assoc]

/-- The stripped capture that goes inside the emitted parentheses contains
no occurrence: such an occurrence would exhibit an internal
`\s+with\s+rollup` tail in the original capture, after its own nonempty
`group` part. -/
lemma noOcc_of_capNoInnerTail {cap : List Char} (hD : CapNoInnerTail cap) :
    ¬ HasRollupOcc (rstripCommaL (stripL cap)) := by
  rintro ⟨pre, m, capm, post, heq, hocc⟩
  obtain ⟨u, v, hcap⟩ := strip_infix cap
  obtain ⟨g, w1, b, w2, w3, wi, w4, ro, hm, hgl, hbl, hwil, hrol, h1, ha1,
    h2, ha2, h3, ha3, h4, ha4, hcne, hccls⟩ := hocc
  refine hD (u ++ (pre ++ (g ++ (w1 ++ (b ++ (w2 ++ capm)))))) w3 wi w4 ro
    (post ++ v) ?_ ?_ h3 ha3 hwil h4 ha4 hrol
  · rw [hcap, heq, hm]
    simp [List.append_assoc]
  · intro hnil
    simp only [List.append_eq_nil] at hnil
    exact ne_nil_of_lowerL hgl hnil.2.2.1

/-- A replacement block followed by occurrence-free text is
occurrence-free: the parentheses fence off the literal and the stripped
capture, and the uppercase literal itself has no occurrence. -/
lemma noOcc_repl_append {cap Z : List Char} (hD : CapNoInnerTail cap)
    (hZ : ¬ HasRollupOcc Z) : ¬ HasRollupOcc (replText cap ++ Z) := by
  have h1 : ¬ HasRollupOcc (rstripCommaL (stripL cap)) :=
    noOcc_of_capNoInnerTail hD
  have h2 : ¬ HasRollupOcc (rstripCommaL (stripL cap) ++ ([')'] ++ Z)) :=
    noOcc_append_bar (by decide) h1 hZ
  have h3 : ¬ HasRollupOcc ("GROUP BY ROLLUP ".data ++
      (['('] ++ (rstripCommaL (stripL cap) ++ ([')'] ++ Z)))) :=
    noOcc_append_bar (by decide) (not_hasOcc_of_findRollup_false (by decide)) h2
  intro hocc
  refine h3 ?_
  have harr : replText cap ++ Z = "GROUP BY ROLLUP ".data ++
      (['('] ++ (rstripCommaL (stripL cap) ++ ([')'] ++ Z))) := by
    rw [replText]
    rw [show ("GROUP BY ROLLUP (".data : List Char) =
      "GROUP BY ROLLUP ".data ++ ['('] from by decide]
    rw [show (")".data : List Char) = [')'] from by decide]
    simp [List.append_assoc]
  rw [← harr]
  exact hocc

/-- A nonempty suffix of an occurrence cannot be a prefix of the literal
`GROUP BY ROLLUP `: the letters of the `with` part, a space run followed by
`rollup`, or a suffix of `rollup` would have to line up with the start of
the literal, and none can. -/
lemma occ_suffix_not_glit_prefix {m cap P ζ γ2 : List Char}
    (hocc : IsRollupOcc m cap) (hζ : ζ ≠ [])
    (hmP : m = P ++ ζ)
    (hG : "GROUP BY ROLLUP ".data = ζ ++ γ2) : False := by
  have hGcons : ("GROUP BY ROLLUP ".data : List Char) =
      'G' :: "ROUP BY ROLLUP ".data := by decide
  obtain ⟨g, w1, b, w2, w3, wi, w4, ro, hm, hgl, hbl, hwil, hrol, h1, ha1,
    h2, ha2, h3, ha3, h4, ha4, hcne, hccls⟩ := hocc
  have hmA : ((g ++ w1 ++ b ++ w2 ++ cap ++ w3) ++ wi) ++ (w4 ++ ro) =
      P ++ ζ := by
    rw [← hmP, hm]
    simp [List.append_assoc]
  rcases List.append_eq_append_iff.mp hmA.symm with
    ⟨a2, hAwi, hζ2⟩ | ⟨c2, hP2, hw4ro⟩
  · cases a2 with
    | nil =>
      rw [List.nil_append] at hζ2
      rw [hζ2] at hG
      cases w4 with
      | nil => exact absurd rfl h4
      | cons s4 ss4 =>
        rw [hGcons] at hG
        simp only [List.cons_append] at hG
        injection hG with hg1 hGt
        simp only [List.all_cons, Bool.and_eq_true] at ha4
        rw [← hg1] at ha4
        exact absurd ha4.1 (by decide)
    | cons q qs =>
      have hwine : wi ≠ [] := ne_nil_of_lowerL hwil
      have h5 := congrArg List.getLast? hAwi
      simp only [List.getLast?_append] at h5
      cases hgl2 : wi.getLast? with
      | none => exact absurd (List.getLast?_eq_none_iff.mp hgl2) hwine
      | some l2 =>
        cases hgl1 : (q :: qs).getLast? with
        | none =>
          exact absurd (List.getLast?_eq_none_iff.mp hgl1)
            (List.cons_ne_nil q qs)
        | some l1 =>
          rw [hgl1, hgl2] at h5
          simp only [Option.or_some] at h5
          injection h5 with hl21
          have hlw : (wi.map lowerCh).getLast? = some 'h' := by
            have hx : wi.map lowerCh = "with".data := hwil
            rw [hx]
            decide
          rw [List.getLast?_map, hgl2] at hlw
          simp only [Option.map_some'] at hlw
          injection hlw with hh
          have hl1mem : l1 ∈ q :: qs := by
            obtain ⟨ys, hys⟩ := List.getLast?_eq_some_iff.mp hgl1
            rw [hys]
            exact List.mem_append_right _ (List.mem_cons_self _ _)
          have hGmem : l1 ∈ ("GROUP BY ROLLUP ".data : List Char) := by
            rw [hG, hζ2]
            exact List.mem_append_left _ (List.mem_append_left _ hl1mem)
          have hforb : ∀ x, x ∈ ("GROUP BY ROLLUP ".data : List Char) →
              ¬ lowerCh x = 'h' := by decide
          refine hforb l1 hGmem ?_
          rw [← hl21]
          exact hh
  · rcases List.append_eq_append_iff.mp hw4ro.symm with
      ⟨a3, hwa, hζ3⟩ | ⟨c3, hc2, hro3⟩
    · cases a3 with
      | nil =>
        rw [List.nil_append] at hζ3
        rw [hζ3] at hG
        cases ro with
        | nil => exact absurd rfl (ne_nil_of_lowerL hrol)
        | cons r1 rs =>
          rw [hGcons] at hG
          simp only [List.cons_append] at hG
          injection hG with hg1 hGt
          have hr1 : lowerCh r1 = 'r' := by
            rw [show ("rollup".data : List Char) = 'r' :: "ollup".data
              from by decide] at hrol
            simp only [lowerL, List.map_cons] at hrol
            injection hrol with h' hrt
          rw [← hg1] at hr1
          exact absurd hr1 (by decide)
      | cons s3 ss3 =>
        rw [hζ3] at hG
        rw [hGcons] at hG
        simp only [List.cons_append] at hG
        injection hG with hg1 hGt
        rw [hwa] at ha4
        simp only [List.all_append, List.all_cons, Bool.and_eq_true] at ha4
        rw [← hg1] at ha4
        exact absurd ha4.2.1 (by decide)
    · cases ζ with
      | nil => exact absurd rfl hζ
      | cons z1 zs =>
        rw [hGcons] at hG
        simp only [List.cons_append] at hG
        injection hG with hg1 hGt
        have hz1ro : z1 ∈ ro := by
          rw [hro3]
          exact List.mem_append_right _ (List.mem_cons_self _ _)
        have hmem2 : lowerCh z1 ∈ ("rollup".data : List Char) := by
          rw [← hrol]
          exact List.mem_map_of_mem lowerCh hz1ro
        rw [← hg1] at hmem2
        exact absurd hmem2 (by decide)

/-- An occurrence cannot start in the text preceding an emitted replacement
and extend into it: the opening parenthesis is not a class character, and
no nonempty prefix of the uppercase literal completes an occurrence. -/
lemma no_cross_into_repl {P R m cap post : List Char}
    (hocc : IsRollupOcc m cap)
    (heq : m ++ post =
      P ++ ("GROUP BY ROLLUP ".data ++ (['('] ++ R)))
    (hnp : ∀ γ : List Char, P = m ++ γ → False) : False := by
  obtain ⟨hmcls, hmne⟩ := occ_all_cls hocc
  rcases List.append_eq_append_iff.mp heq with ⟨a0, hPa, hb0⟩ | ⟨ζ, hmP, hd0⟩
  · exact hnp a0 hPa
  · cases ζ with
    | nil =>
      rw [List.append_nil] at hmP
      exact hnp [] (by rw [hmP, List.append_nil])
    | cons z1 zs =>
      rcases List.append_eq_append_iff.mp hd0 with
        ⟨a1, hza, hb1⟩ | ⟨c1, hGc, hd1⟩
      · cases a1 with
        | nil =>
          rw [List.append_nil] at hza
          exact occ_suffix_not_glit_prefix hocc (List.cons_ne_nil z1 zs) hmP
            (by rw [List.append_nil]; exact hza.symm)
        | cons q qs =>
          rw [List.singleton_append, List.cons_append] at hb1
          injection hb1 with hq1 hb1t
          have hqind : '(' ∈ m := by
            rw [hmP, hza, hq1]
            exact List.mem_append_right _
              (List.mem_append_right _ (List.mem_cons_self _ _))
          have hkc := List.all_eq_true.mp hmcls '(' hqind
          exact absurd hkc (by decide)
      · exact occ_suffix_not_glit_prefix hocc (List.cons_ne_nil z1 zs) hmP hGc

/-- The scanner's output has no occurrence at all: the only new text it
emits is fenced replacement blocks, and an occurrence survives neither
inside a block nor across a block boundary. -/
lemma subRollupF_no_occ :
    ∀ (k : Nat) (s : List Char), s.length ≤ k →
      ¬ HasRollupOcc (subRollupF s.length s) := by
  intro k
  induction k with
  | zero =>
    intro s hs
    have hsnil : s = [] := List.length_eq_zero.mp (Nat.le_zero.mp hs)
    subst hsnil
    exact not_hasOcc_of_findRollup_false (by decide)
  | succ k ih =>
    intro s hs
    cases s with
    | nil => exact not_hasOcc_of_findRollup_false (by decide)
    | cons c rest =>
      have hlen : (c :: rest).length = rest.length + 1 := rfl
      rw [hlen, subRollupF]
      cases hmt : matchRollupAt (c :: rest) with
      | some p =>
        obtain ⟨cap, a⟩ := p
        dsimp only
        obtain ⟨m, hm, hocc, hmne, hD⟩ := matchRollupAt_sound hmt
        have hlt := matchRollupAt_after_lt hmt
        have hfa : subRollupF rest.length a = subRollupF a.length a :=
          subRollupF_fuel a.length a (Nat.le_refl _) rest.length a.length
            (by simp only [List.length_cons] at hlt; omega) (Nat.le_refl _)
        rw [hfa]
        exact noOcc_repl_append hD (ih a (by
          simp only [List.length_cons] at hs hlt; omega))
      | none =>
        dsimp only
        have hWno : ¬ HasRollupOcc (subRollupF rest.length rest) :=
          ih rest (by simp only [List.length_cons] at hs; omega)
        rintro ⟨pre, m, cap, post, heq, hocc⟩
        cases pre with
        | cons p ps =>
          simp only [List.cons_append] at heq
          injection heq with hpc hrest2
          exact hWno ⟨ps, m, cap, post, hrest2, hocc⟩
        | nil =>
          rw [List.nil_append] at heq
          cases hfr : findRollup rest with
          | false =>
            rw [subRollupF_of_findRollup_false rest rest.length hfr] at heq
            have hsome := matchRollupAt_complete hocc post
            rw [← heq] at hsome
            rw [hmt] at hsome
            exact Bool.noConfusion hsome
          | true =>
            obtain ⟨pre2, m2, cap2, a2, hrest_eq, hocc2, hsub⟩ :=
              subRollupF_first rest hfr
            rw [hsub] at heq
            have hnp : ∀ γ : List Char, (c :: pre2) = m ++ γ → False := by
              intro γ hγ
              have hfull : c :: rest = m ++ (γ ++ (m2 ++ a2)) := by
                rw [hrest_eq, ← List.cons_append, hγ]
                simp [List.append_assoc]
              have hsome := matchRollupAt_complete hocc (γ ++ (m2 ++ a2))
              rw [← hfull] at hsome
              rw [hmt] at hsome
              exact Bool.noConfusion hsome
            have heq2 : m ++ post = (c :: pre2) ++
                ("GROUP BY ROLLUP ".data ++ (['('] ++
                  (rstripCommaL (stripL cap2) ++
                    ([')'] ++ subRollupF a2.length a2)))) := by
              rw [← heq, replText]
              rw [show ("GROUP BY ROLLUP (".data : List Char) =
                "GROUP BY ROLLUP ".data ++ ['('] from by decide]
              rw [show (")".data : List Char) = [')'] from by decide]
              simp [List.append_assoc]
            exact no_cross_into_repl hocc heq2 hnp

/-- C9: the dialect-normalization step leaves a candidate with no
occurrence of the `group by ... with rollup` spelling unchanged, on a
candidate with an occurrence it rewrites the leftmost occurrence into the
portable `GROUP BY ROLLUP (cols)` form (columns stripped of surrounding
whitespace and trailing commas) and proceeds identically on the rest of
the text, and its output never retains an occurrence of the spelling. -/
theorem c9_rollup_rewrite :
    (∀ s : List Char, ¬ HasRollupOcc s →
      normalize_sql_for_postgres s = s) ∧
    (∀ s : List Char, HasRollupOcc s →
      ∃ pre m cap post, s = pre ++ (m ++ post) ∧ IsRollupOcc m cap ∧
        normalize_sql_for_postgres s =
          pre ++ (replText cap ++ normalize_sql_for_postgres post)) ∧
    (∀ s : List Char, ¬ HasRollupOcc (normalize_sql_for_postgres s)) := by
  refine ⟨?_, ?_, ?_⟩
  · intro s hno
    have hf : findRollup s = false := by
      cases hf : findRollup s with
      | false => rfl
      | true => exact absurd (hasOcc_of_findRollup hf) hno
    exact subRollupF_of_findRollup_false s s.length hf
  · intro s hocc
    exact subRollupF_first s (findRollup_of_hasOcc hocc)
  · intro s
    exact subRollupF_no_occ s.length s (Nat.le_refl _)

/-- C9 witness: a text without the spelling is unchanged, a concrete
occurrence is rewritten into the portable form, and the rewritten text
contains no occurrence. -/
theorem c9_witness :
    normalize_sql_for_postgres "select a from t order by a".data =
      "select a from t order by a".data ∧
    (∃ pre m cap post,
      "select x group by a, b with rollup".data = pre ++ (m ++ post) ∧
      IsRollupOcc m cap ∧
      normalize_sql_for_postgres "select x group by a, b with rollup".data =
        pre ++ (replText cap ++ normalize_sql_for_postgres post)) ∧
    ¬ HasRollupOcc (normalize_sql_for_postgres
      "select x group by a, b with rollup".data) :=
  ⟨c9_rollup_rewrite.1 _ (not_hasOcc_of_findRollup_false (by decide)),
   c9_rollup_rewrite.2.1 _
     ⟨"select x ".data, "group by a, b with rollup".data, "a, b".data, [],
      by decide,
      ⟨"group".data, " ".data, "by".data, " ".data, " ".data, "with".data,
        " ".data, "rollup".data, by decide, by decide, by decide, by decide,
        by decide, by decide, by decide, by decide, by decide, by decide,
        by decide, by decide, by decide, by decide, by decide⟩⟩,
   c9_rollup_rewrite.2.2 _⟩

end WeBox
